import Mathlib

/-! Durable file-backed payment queue (`main.go`).

A shallow embedding of the queue, the retry loop and the lock-marker protocol
of `main.go`, followed by the properties proved about them.

Conventions of the embedding:

* Go `string` and `[]byte` values are lists of characters (`Str`).
* The file system is an association list from cleaned absolute paths to nodes;
  every `os` call of the program is a function on that list, with failure as
  `none`.
* `time.Duration` is an integer number of nanoseconds, wrapped to 64 bits.
* The two remote endpoints are an oracle that answers every POST.
* `log.Printf` output is not part of the state.
-/

namespace Rinha

/-- Go `string` / `[]byte`. -/
abbrev Str := List Char

/-- Go `type Payment struct { ID string; Amount string }`. -/
structure Payment where
  ID : Str
  Amount : Str
deriving DecidableEq, Repr

/-! ## Constants -/

def queueDir : Str := "/tmp".toList
def priorityDir : Str := "/tmp/priority".toList
def summaryFile : Str := "/data/summary.json".toList
def mainURL : Str := "http://main-endpoint:8080/payments".toList
def fallbackURL : Str := "http://fallback-endpoint:8080/payments".toList
def workerCount : Nat := 7

/-- The directory of the ledger, `filepath.Dir(summaryFile)`. -/
def summaryDir : Str := "/data".toList

/-- The extension of an item file. -/
def dotJson : Str := ".json".toList
/-- The suffix that turns the path of an item file into that of its lock marker. -/
def dotLock : Str := ".lock".toList

/-- Go `time.Millisecond`, in nanoseconds. -/
def millisecond : Int := 1000000
/-- Go `time.Second`, in nanoseconds. -/
def second : Int := 1000000000
def maxRetryDelay : Int := 10 * second

/-- Two's-complement wrap of an `int64` result. -/
def wrapInt64 (x : Int) : Int := (x + 2 ^ 63) % 2 ^ 64 - 2 ^ 63

/-! ## `path/filepath` (Unix) -/

/-- Go `strings.Split(s, "/")`. -/
def splitSlash : Str → List Str
  | [] => [[]]
  | c :: cs =>
    if c = '/' then [] :: splitSlash cs
    else match splitSlash cs with
      | [] => [[c]]
      | h :: t => (c :: h) :: t

/-- Go `strings.Join(xs, "/")`. -/
def joinSlash : List Str → Str
  | [] => []
  | [x] => x
  | x :: y :: r => x ++ '/' :: joinSlash (y :: r)

/-- One path element of `filepath.Clean`; `stack` holds the elements kept so
far, innermost first. Empty and `.` elements vanish, `..` removes the element
before it, is dropped at the root and is kept at the start of a relative path. -/
def cleanStep (rooted : Bool) (stack : List Str) (c : Str) : List Str :=
  if c = [] ∨ c = ['.'] then stack
  else if c = ['.', '.'] then
    match stack with
    | [] => if rooted then [] else [c]
    | top :: rest => if top = ['.', '.'] then c :: stack else rest
  else c :: stack

/-- Go `filepath.Clean`. -/
def Clean (path : Str) : Str :=
  if path = [] then ['.']
  else
    let rooted : Bool := path.head? = some '/'
    let out := joinSlash ((splitSlash path).foldl (cleanStep rooted) []).reverse
    if rooted then '/' :: out else if out = [] then ['.'] else out

/-- Go `filepath.Join(a, b)`. -/
def Join (a b : Str) : Str :=
  if a ≠ [] then Clean (a ++ '/' :: b)
  else if b ≠ [] then Clean b
  else []

/-- The backwards scan of `filepath.Ext` over the reversed path. -/
def extRev : Str → Str → Str
  | [], _ => []
  | c :: cs, acc =>
    if c = '/' then []
    else if c = '.' then '.' :: acc
    else extRev cs (c :: acc)

/-- Go `filepath.Ext`. -/
def Ext (path : Str) : Str := extRev path.reverse []

/-- Go `filepath.Base`. -/
def Base (path : Str) : Str :=
  if path = [] then ['.']
  else
    let stripped := path.reverse.dropWhile (fun c => c = '/')
    let last := (stripped.takeWhile (fun c => c ≠ '/')).reverse
    if last = [] then ['/'] else last

/-- The directory that holds `path`, for an absolute cleaned `path`. -/
def parentOf (path : Str) : Str :=
  let r := (path.reverse.dropWhile (fun c => c ≠ '/')).drop 1
  if r = [] then ['/'] else r.reverse

/-! ## File system -/

/-- What sits at a path: a directory, or a regular file with its bytes. -/
inductive Node where
  | dir
  | file (data : Str)
deriving DecidableEq, Repr, Inhabited

/-- The file system: each path is bound at most once by the operations below. -/
abbrev FS := List (Str × Node)

/-- The node at path `p`, if any. -/
def FS.find : FS → Str → Option Node
  | [], _ => none
  | (k, n) :: rest, p => if k = p then some n else FS.find rest p

/-- The file system without path `p`. -/
def FS.erase (fs : FS) (p : Str) : FS := fs.filter (fun e => decide (e.1 ≠ p))

/-- The file system with node `n` at path `p`. -/
def FS.put (fs : FS) (p : Str) (n : Node) : FS := (p, n) :: FS.erase fs p

/-- The string `s` without its leading `pre`, when it has it. -/
def dropPre : Str → Str → Option Str
  | [], s => some s
  | _ :: _, [] => none
  | d :: ds, c :: cs => if d = c then dropPre ds cs else none

/-- The name under which path `k` is listed in directory `dir`, if `k` lies
directly in `dir`. -/
def childName (dir k : Str) : Option Str :=
  match dropPre (if dir = ['/'] then dir else dir ++ ['/']) k with
  | some n => if n ≠ [] ∧ '/' ∉ n then some n else none
  | none => none

/-- Go `fs.DirEntry`, reduced to `Name()` and `IsDir()`. -/
structure DirEntry where
  name : Str
  isDir : Bool
deriving DecidableEq, Repr

/-- Go string comparison `a <= b`. -/
def strLE : Str → Str → Bool
  | [], _ => true
  | _ :: _, [] => false
  | a :: as, b :: bs => if a < b then true else if b < a then false else strLE as bs

/-- Insertion of an entry into a list sorted by file name. -/
def insertEntry (e : DirEntry) : List DirEntry → List DirEntry
  | [] => [e]
  | x :: xs => if strLE e.name x.name then e :: x :: xs else x :: insertEntry e xs

/-- The entries sorted by file name. -/
def sortEntries : List DirEntry → List DirEntry
  | [] => []
  | e :: es => insertEntry e (sortEntries es)

/-- Go `os.ReadDir`: the entries of `dir`, sorted by file name. -/
def readDir (fs : FS) (dir : Str) : Option (List DirEntry) :=
  if fs.find dir = some Node.dir then
    some (sortEntries (fs.filterMap fun e =>
      (childName dir e.1).map fun n => ⟨n, decide (fs.find e.1 = some Node.dir)⟩))
  else none

/-- Go `os.WriteFile(path, data, 0644)`: create or truncate. A path with a NUL
byte is refused before any system call; this is the one call of the program
whose file name comes from outside, every other path is built from a name read
from a directory. -/
def writeFile (fs : FS) (path data : Str) : Option FS :=
  if Char.ofNat 0 ∉ path ∧ fs.find (parentOf path) = some Node.dir ∧
      fs.find path ≠ some Node.dir then
    some (fs.put path (Node.file data))
  else none

/-- Go `os.OpenFile(path, os.O_CREATE|os.O_EXCL, 0600)` followed by `Close`:
fails when `path` exists. -/
def openExcl (fs : FS) (path : Str) : Option FS :=
  if fs.find (parentOf path) = some Node.dir ∧ fs.find path = none then
    some (fs.put path (Node.file []))
  else none

/-- Go `os.ReadFile`. -/
def readFile (fs : FS) (path : Str) : Option Str :=
  match fs.find path with
  | some (Node.file d) => some d
  | _ => none

/-- Go `os.Remove`: unlinks a file, or removes an empty directory. -/
def remove (fs : FS) (path : Str) : Option FS :=
  match fs.find path with
  | some (Node.file _) => some (fs.erase path)
  | some Node.dir =>
    if fs.any (fun e => (childName path e.1).isSome) then none else some (fs.erase path)
  | none => none

/-- Go `os.Rename` of a regular file: replaces a regular file at `newp`, fails on a
directory there. Renaming a directory is outside the model (`none`): the program
renames only paths it has just read as regular files and never makes a
directory after start-up. -/
def rename (fs : FS) (oldp newp : Str) : Option FS :=
  match fs.find oldp with
  | some (Node.file d) =>
    if fs.find (parentOf newp) = some Node.dir ∧ fs.find newp ≠ some Node.dir then
      some ((fs.erase oldp).put newp (Node.file d))
    else none
  | _ => none

/-- Go `os.OpenFile(path, os.O_APPEND|os.O_CREATE|os.O_WRONLY, 0644)`, one `Write`
of `data`, `Close`. -/
def appendFile (fs : FS) (path data : Str) : Option FS :=
  match fs.find path with
  | some (Node.file d) => some (fs.put path (Node.file (d ++ data)))
  | some Node.dir => none
  | none =>
    if fs.find (parentOf path) = some Node.dir then some (fs.put path (Node.file data))
    else none

/-! ## `encoding/json`, for the `Payment` struct

The decoder checks the whole text against the JSON grammar and fills the two
string fields from the members of a top-level object; the encoder writes the two
fields in order, compactly. The nesting limit of the decoder and invalid UTF-8
are outside the model. -/

def dquote : Char := Char.ofNat 34
def backslash : Char := Char.ofNat 92
def newline : Char := Char.ofNat 10
def replacementChar : Char := Char.ofNat 0xFFFD

inductive Tok where
  | lbrace | rbrace | lbrack | rbrack | colon | comma
  | str (s : Str)
  | num | tru | fls | null
deriving DecidableEq, Repr

def isSpace (c : Char) : Bool := c = ' ' || c = Char.ofNat 9 || c = Char.ofNat 13 || c = newline

def isDigit (c : Char) : Bool := decide ('0' ≤ c ∧ c ≤ '9')

def hexVal (c : Char) : Option Nat :=
  if '0' ≤ c ∧ c ≤ '9' then some (c.toNat - 48)
  else if 'a' ≤ c ∧ c ≤ 'f' then some (c.toNat - 87)
  else if 'A' ≤ c ∧ c ≤ 'F' then some (c.toNat - 55)
  else none

/-- The value of a leading `\uXXXX`. -/
def getu4 (s : Str) : Option Nat :=
  match s with
  | b :: u :: h1 :: h2 :: h3 :: h4 :: _ =>
    if b = backslash ∧ u = 'u' then
      match hexVal h1, hexVal h2, hexVal h3, hexVal h4 with
      | some a, some b, some c, some d => some (((a * 16 + b) * 16 + c) * 16 + d)
      | _, _, _, _ => none
    else none
  | _ => none

/-- The character named by a one-letter escape. -/
def unescape (e : Char) : Option Char :=
  if e = dquote then some dquote
  else if e = backslash then some backslash
  else if e = '/' then some '/'
  else if e = 'b' then some (Char.ofNat 8)
  else if e = 'f' then some (Char.ofNat 12)
  else if e = 'n' then some newline
  else if e = 'r' then some (Char.ofNat 13)
  else if e = 't' then some (Char.ofNat 9)
  else none

/-- A string literal after its opening quote: the decoded string and the input
after the closing quote. Raw control characters and unknown escapes are syntax
errors; a lone surrogate escape decodes to U+FFFD. -/
def scanString : Nat → Str → Str → Option (Str × Str)
  | 0, _, _ => none
  | fuel + 1, s, acc =>
    match s with
    | [] => none
    | c :: cs =>
      if c = dquote then some (acc.reverse, cs)
      else if c = backslash then
        match cs with
        | [] => none
        | e :: cs1 =>
          if e = 'u' then
            match getu4 s with
            | none => none
            | some v =>
              let r := cs1.drop 4
              if 0xD800 ≤ v ∧ v < 0xE000 then
                match getu4 r with
                | some v2 =>
                  if v < 0xDC00 ∧ 0xDC00 ≤ v2 ∧ v2 < 0xE000 then
                    scanString fuel (r.drop 6)
                      (Char.ofNat (0x10000 + (v - 0xD800) * 0x400 + (v2 - 0xDC00)) :: acc)
                  else scanString fuel r (replacementChar :: acc)
                | none => scanString fuel r (replacementChar :: acc)
              else scanString fuel r (Char.ofNat v :: acc)
          else
            match unescape e with
            | some ch => scanString fuel cs1 (ch :: acc)
            | none => none
      else if c.toNat < 0x20 then none
      else scanString fuel cs (c :: acc)

def dropDigits (s : Str) : Str := s.dropWhile isDigit

/-- The exponent part of a number, if any. -/
def scanExp (s : Str) : Option Str :=
  match s with
  | e :: r =>
    if e = 'e' ∨ e = 'E' then
      let r2 := match r with
        | sg :: x => if sg = '+' ∨ sg = '-' then x else r
        | [] => r
      match r2 with
      | d :: r3 => if isDigit d then some (dropDigits r3) else none
      | [] => none
    else some s
  | [] => some s

/-- The fraction part of a number, if any, then the exponent. -/
def scanFrac (s : Str) : Option Str :=
  match s with
  | dot :: r =>
    if dot = '.' then
      match r with
      | d :: r2 => if isDigit d then scanExp (dropDigits r2) else none
      | [] => none
    else scanExp s
  | [] => scanExp s

/-- A JSON number at the head of `s`: the input after it. -/
def scanNumber (s : Str) : Option Str :=
  let s1 := match s with
    | m :: r => if m = '-' then r else s
    | [] => s
  match s1 with
  | d :: r =>
    if d = '0' then scanFrac r
    else if isDigit d then scanFrac (dropDigits r)
    else none
  | [] => none

/-- The token stream of a JSON text. -/
def lex : Nat → Str → Option (List Tok)
  | 0, _ => none
  | fuel + 1, s =>
    match s with
    | [] => some []
    | c :: cs =>
      if isSpace c then lex fuel cs
      else if c = '{' then (lex fuel cs).map (Tok.lbrace :: ·)
      else if c = '}' then (lex fuel cs).map (Tok.rbrace :: ·)
      else if c = '[' then (lex fuel cs).map (Tok.lbrack :: ·)
      else if c = ']' then (lex fuel cs).map (Tok.rbrack :: ·)
      else if c = ':' then (lex fuel cs).map (Tok.colon :: ·)
      else if c = ',' then (lex fuel cs).map (Tok.comma :: ·)
      else if c = dquote then
        match scanString s.length cs [] with
        | some (str, rest) => (lex fuel rest).map (Tok.str str :: ·)
        | none => none
      else if c = '-' ∨ isDigit c then
        match scanNumber s with
        | some rest => (lex fuel rest).map (Tok.num :: ·)
        | none => none
      else
        match dropPre "true".toList s, dropPre "false".toList s, dropPre "null".toList s with
        | some rest, _, _ => (lex fuel rest).map (Tok.tru :: ·)
        | _, some rest, _ => (lex fuel rest).map (Tok.fls :: ·)
        | _, _, some rest => (lex fuel rest).map (Tok.null :: ·)
        | _, _, _ => none

inductive Ctx where
  | obj | arr
deriving DecidableEq, Repr

inductive Phase where
  | value | firstKey | key | colon | firstElem | done
deriving DecidableEq, Repr

inductive Field where
  | id | amount
deriving DecidableEq, Repr

def upperAscii (c : Char) : Char :=
  if 'a' ≤ c ∧ c ≤ 'z' then Char.ofNat (c.toNat - 32) else c

/-- The struct field an object key selects: the exact name, else the name up to
case. Outside ASCII no letter folds to a letter of `id` or `amount`. -/
def matchField (k : Str) : Option Field :=
  if k.map upperAscii = "ID".toList then some Field.id
  else if k.map upperAscii = "AMOUNT".toList then some Field.amount
  else none

/-- Decoder state: syntax phase, open containers, the field selected by the
current top-level key, the struct being filled, and whether an
`UnmarshalTypeError` was saved. -/
structure Dec where
  phase : Phase
  stack : List Ctx
  cur : Option Field
  p : Payment
  typeErr : Bool
deriving DecidableEq, Repr

def isScalar (t : Tok) : Bool :=
  match t with
  | Tok.str _ | Tok.num | Tok.tru | Tok.fls | Tok.null => true
  | _ => false

/-- The effect of a value that starts with token `t` on the struct: at top level
only an object or `null` is accepted; in a selected field only a string or
`null`. -/
def assign (d : Dec) (t : Tok) : Dec :=
  match d.stack with
  | [] =>
    match t with
    | Tok.lbrace | Tok.null => d
    | _ => { d with typeErr := true }
  | [Ctx.obj] =>
    match d.cur, t with
    | none, _ => d
    | some _, Tok.null => d
    | some Field.id, Tok.str s => { d with p := { d.p with ID := s } }
    | some Field.amount, Tok.str s => { d with p := { d.p with Amount := s } }
    | some _, _ => { d with typeErr := true }
  | _ => d

/-- One token of the pushdown automaton; `none` is a syntax error. -/
def decStep (d : Dec) (t : Tok) : Option Dec :=
  match d.phase with
  | Phase.value | Phase.firstElem =>
    if isScalar t then some { assign d t with phase := Phase.done }
    else match t with
      | Tok.lbrace => some { assign d t with phase := Phase.firstKey, stack := Ctx.obj :: d.stack }
      | Tok.lbrack => some { assign d t with phase := Phase.firstElem, stack := Ctx.arr :: d.stack }
      | Tok.rbrack =>
        match d.phase, d.stack with
        | Phase.firstElem, Ctx.arr :: rest => some { d with phase := Phase.done, stack := rest }
        | _, _ => none
      | _ => none
  | Phase.firstKey =>
    match t, d.stack with
    | Tok.str k, [Ctx.obj] => some { d with phase := Phase.colon, cur := matchField k }
    | Tok.str _, _ => some { d with phase := Phase.colon }
    | Tok.rbrace, _ :: rest => some { d with phase := Phase.done, stack := rest }
    | _, _ => none
  | Phase.key =>
    match t, d.stack with
    | Tok.str k, [Ctx.obj] => some { d with phase := Phase.colon, cur := matchField k }
    | Tok.str _, _ => some { d with phase := Phase.colon }
    | _, _ => none
  | Phase.colon =>
    match t with
    | Tok.colon => some { d with phase := Phase.value }
    | _ => none
  | Phase.done =>
    match d.stack, t with
    | Ctx.obj :: _, Tok.comma => some { d with phase := Phase.key }
    | Ctx.obj :: rest, Tok.rbrace => some { d with stack := rest }
    | Ctx.arr :: _, Tok.comma => some { d with phase := Phase.value }
    | Ctx.arr :: rest, Tok.rbrack => some { d with stack := rest }
    | _, _ => none

def decRun : Dec → List Tok → Option Dec
  | d, [] => some d
  | d, t :: ts =>
    match decStep d t with
    | some d1 => decRun d1 ts
    | none => none

/-- Go `json.Unmarshal(data, &p)` for a zero `p`: `none` when it returns an error
(syntax or type). -/
def jsonUnmarshal (data : Str) : Option Payment :=
  match lex (data.length + 1) data with
  | none => none
  | some toks =>
    match decRun ⟨Phase.value, [], none, ⟨[], []⟩, false⟩ toks with
    | some d => if d.phase = Phase.done ∧ d.stack = [] ∧ d.typeErr = false then some d.p else none
    | none => none

def hexDigit (n : Nat) : Char := if n < 10 then Char.ofNat (48 + n) else Char.ofNat (87 + n)

/-- The encoding of one character inside a JSON string, with HTML escaping on
(the default of both `Marshal` and `Encoder`). -/
def escapeChar (c : Char) : Str :=
  if c = dquote then [backslash, dquote]
  else if c = backslash then [backslash, backslash]
  else if c = Char.ofNat 8 then [backslash, 'b']
  else if c = Char.ofNat 12 then [backslash, 'f']
  else if c = newline then [backslash, 'n']
  else if c = Char.ofNat 13 then [backslash, 'r']
  else if c = Char.ofNat 9 then [backslash, 't']
  else if c.toNat < 0x20 ∨ c = '<' ∨ c = '>' ∨ c = '&' then
    [backslash, 'u', '0', '0', hexDigit (c.toNat / 16), hexDigit (c.toNat % 16)]
  else if c.toNat = 0x2028 ∨ c.toNat = 0x2029 then
    [backslash, 'u', '2', '0', '2', hexDigit (c.toNat % 16)]
  else [c]

def quote (s : Str) : Str := dquote :: (s.map escapeChar).flatten ++ [dquote]

/-- Go `json.Marshal(p)`. -/
def jsonMarshal (p : Payment) : Str :=
  '{' :: dquote :: 'i' :: 'd' :: dquote :: ':' :: quote p.ID ++
    (',' :: dquote :: "amount".toList ++ dquote :: ':' :: quote p.Amount ++ ['}'])

/-- Go `json.NewEncoder(f).Encode(p)`: the encoding and a newline. -/
def encodeLine (p : Payment) : Str := jsonMarshal p ++ [newline]

/-! ## The program -/

/-- One POST made by `sendToEndpoint` and whether it was answered with a status
in 200..299. -/
structure Post where
  url : Str
  payload : Str
  ok : Bool
deriving DecidableEq, Repr

/-- The remote endpoints: from the POSTs made so far, the URL and the payload,
whether this POST succeeds (a transport error, a timeout or another status is
`false`). -/
abbrev Oracle := List Post → Str → Str → Bool

/-- What the program acts on: the file system, the POSTs made and the delays
slept, both in order. -/
structure World where
  fs : FS
  posts : List Post
  sleeps : List Int
deriving DecidableEq, Repr

/-- The layout `main` leaves behind on an empty machine: the two store
directories and the directory of the ledger. -/
def bootFS : FS :=
  [(['/'], Node.dir), (queueDir, Node.dir), (priorityDir, Node.dir), (summaryDir, Node.dir)]

/-- Go `handlePayment`: the HTTP status and the file system afterwards. -/
def handlePayment (body : Str) (fs : FS) : Nat × FS :=
  match jsonUnmarshal body with
  | none => (400, fs)
  | some p =>
    if p.ID = [] then (400, fs)
    else
      let dest := Join queueDir (p.ID ++ dotJson)
      match writeFile fs dest body with
      | none => (500, fs)
      | some fs1 => (202, fs1)

/-- Go `sendToEndpoint`. -/
def sendToEndpoint (o : Oracle) (url : Str) (p : Payment) (w : World) : Bool × World :=
  let payload := jsonMarshal p
  let ok := o w.posts url payload
  (ok, { w with posts := w.posts ++ [⟨url, payload, ok⟩] })

/-- Go `appendToSummary`; a failure to open the ledger is only logged. -/
def appendToSummary (p : Payment) (fs : FS) : FS :=
  match appendFile fs summaryFile (encodeLine p) with
  | some fs1 => fs1
  | none => fs

/-- Go `delay *= 2; if delay > maxRetryDelay { delay = maxRetryDelay }`. -/
def nextDelay (delay : Int) : Int :=
  let d := wrapInt64 (delay * 2)
  if d > maxRetryDelay then maxRetryDelay else d

/-- The loop `for attempt := 1; attempt <= 5; attempt++` of `processQueue`, by
the number of attempts left: `success` and the world afterwards. -/
def retryLoop (o : Oracle) (p : Payment) : Nat → Int → World → Bool × World
  | 0, _, w => (false, w)
  | n + 1, delay, w =>
    let r1 := sendToEndpoint o mainURL p w
    if r1.1 then (true, r1.2)
    else
      let r2 := sendToEndpoint o fallbackURL p r1.2
      if r2.1 then (true, r2.2)
      else retryLoop o p n (nextDelay delay) { r2.2 with sleeps := r2.2.sleeps ++ [delay] }

/-- Go `os.Remove(path)` with the error dropped. -/
def removeQuiet (fs : FS) (path : Str) : FS := (remove fs path).getD fs

/-- Go `os.Rename(oldp, newp)` with the error dropped. -/
def renameQuiet (fs : FS) (oldp newp : Str) : FS := (rename fs oldp newp).getD fs

/-- The body of `for _, f := range files` in `processQueue`, for one entry. -/
def processEntry (o : Oracle) (dir : Str) (f : DirEntry) (w : World) : World :=
  if f.isDir ∨ Ext f.name ≠ dotJson then w
  else
    let path := Join dir f.name
    let lockPath := path ++ dotLock
    match openExcl w.fs lockPath with
    | none => w
    | some fs1 =>
      match readFile fs1 path with
      | none => { w with fs := removeQuiet fs1 lockPath }
      | some data =>
        match jsonUnmarshal data with
        | none => { w with fs := removeQuiet fs1 lockPath }
        | some p =>
          let r := retryLoop o p 5 (100 * millisecond) { w with fs := fs1 }
          let fs3 :=
            if r.1 then appendToSummary p (removeQuiet r.2.fs path)
            else renameQuiet r.2.fs path (Join priorityDir (Base path))
          { r.2 with fs := removeQuiet fs3 lockPath }

/-- One pass of the outer `for` of `processQueue`: list the directory, then
process every entry. -/
def scanPass (o : Oracle) (dir : Str) (w : World) : World :=
  match readDir w.fs dir with
  | none => w
  | some files => files.foldl (fun w1 f => processEntry o dir f w1) w

/-- Go `processQueue(id, dir)` run alone, cut after `n` rounds of its outer `for`
(the loop itself never returns). -/
def processQueue (o : Oracle) (dir : Str) : Nat → World → World
  | 0, w => w
  | n + 1, w => processQueue o dir n (scanPass o dir w)

/-! ## Interleaved workers

The same loop, cut at every file-system call, so that the loops of several
workers and the intake handler can be interleaved. -/

/-- Where a worker loop stands; `rest` is what is left of its directory listing. -/
inductive PC where
  | scan
  | iter (files : List DirEntry)
  | claimed (path : Str) (rest : List DirEntry)
  | deliver (path : Str) (p : Payment) (rest : List DirEntry)
  | removing (path : Str) (p : Payment) (rest : List DirEntry)
  | appending (path : Str) (p : Payment) (rest : List DirEntry)
  | escalating (path : Str) (p : Payment) (rest : List DirEntry)
  | releasing (path : Str) (rest : List DirEntry)
deriving DecidableEq, Repr

/-- One `go processQueue(id, dir)`. -/
structure Worker where
  id : Nat
  dir : Str
  pc : PC
deriving DecidableEq, Repr

/-- The item file a worker has claimed and not yet released. -/
def PC.holds : PC → Option Str
  | PC.scan => none
  | PC.iter _ => none
  | PC.claimed path _ => some path
  | PC.deliver path _ _ => some path
  | PC.removing path _ _ => some path
  | PC.appending path _ _ => some path
  | PC.escalating path _ _ => some path
  | PC.releasing path _ => some path

/-- The next step of one worker loop: up to and including its next file-system
call, or the whole retry loop (which touches no file). -/
def workerStep (o : Oracle) (wk : Worker) (w : World) : Worker × World :=
  match wk.pc with
  | PC.scan =>
    match readDir w.fs wk.dir with
    | none => (wk, w)
    | some files => ({ wk with pc := PC.iter files }, w)
  | PC.iter [] => ({ wk with pc := PC.scan }, w)
  | PC.iter (f :: rest) =>
    if f.isDir ∨ Ext f.name ≠ dotJson then ({ wk with pc := PC.iter rest }, w)
    else
      let path := Join wk.dir f.name
      match openExcl w.fs (path ++ dotLock) with
      | none => ({ wk with pc := PC.iter rest }, w)
      | some fs1 => ({ wk with pc := PC.claimed path rest }, { w with fs := fs1 })
  | PC.claimed path rest =>
    match readFile w.fs path with
    | none => ({ wk with pc := PC.releasing path rest }, w)
    | some data =>
      match jsonUnmarshal data with
      | none => ({ wk with pc := PC.releasing path rest }, w)
      | some p => ({ wk with pc := PC.deliver path p rest }, w)
  | PC.deliver path p rest =>
    let r := retryLoop o p 5 (100 * millisecond) w
    ({ wk with pc := if r.1 then PC.removing path p rest else PC.escalating path p rest }, r.2)
  | PC.removing path p rest =>
    ({ wk with pc := PC.appending path p rest }, { w with fs := removeQuiet w.fs path })
  | PC.appending path p rest =>
    ({ wk with pc := PC.releasing path rest }, { w with fs := appendToSummary p w.fs })
  | PC.escalating path _ rest =>
    ({ wk with pc := PC.releasing path rest },
      { w with fs := renameQuiet w.fs path (Join priorityDir (Base path)) })
  | PC.releasing path rest =>
    ({ wk with pc := PC.iter rest }, { w with fs := removeQuiet w.fs (path ++ dotLock) })

/-- Go `startWorkers(n)`: two loops per worker identity, priority store first. -/
def startWorkers (n : Nat) : List Worker :=
  ((List.range n).map fun i =>
    [(⟨i + 1, priorityDir, PC.scan⟩ : Worker), ⟨i + 1, queueDir, PC.scan⟩]).flatten

/-- The running program: the world and its worker loops. -/
structure Sys where
  world : World
  workers : List Worker
deriving DecidableEq, Repr

/-- What can happen next: a request reaches `handlePayment`, or worker loop `i`
takes its next step. -/
inductive Event where
  | request (body : Str)
  | work (i : Nat)
deriving DecidableEq, Repr

/-- One event; the write of `handlePayment` counts as one step, and an index
that names no worker loop changes nothing. -/
def step (o : Oracle) (s : Sys) (e : Event) : Sys :=
  match e with
  | Event.request body =>
    { s with world := { s.world with fs := (handlePayment body s.world.fs).2 } }
  | Event.work i =>
    match s.workers[i]? with
    | none => s
    | some wk =>
      let r := workerStep o wk s.world
      { world := r.2, workers := s.workers.set i r.1 }

/-- The state after the events `evs`, in order. -/
def run (o : Oracle) (s : Sys) (evs : List Event) : Sys := evs.foldl (step o) s

/-- Consecutive steps of one worker loop, `n` of them, with nothing else running
in between. -/
def workerSteps (o : Oracle) : Nat → Worker × World → Worker × World
  | 0, x => x
  | n + 1, x => workerSteps o n (workerStep o x.1 x.2)

/-- The system as `main` starts it on file system `fs`. -/
def initSys (fs : FS) : Sys := ⟨⟨fs, [], []⟩, startWorkers workerCount⟩

/-! ## Vocabulary of the properties -/

/-- The two POSTs of an attempt in which both endpoints fail. -/
def failedAttempt (p : Payment) : List Post :=
  [⟨mainURL, jsonMarshal p, false⟩, ⟨fallbackURL, jsonMarshal p, false⟩]

/-- The POSTs `new`, made after the POSTs `hist`, each carry the answer of the
endpoints: the flag of a POST is what the oracle answers to its URL and payload
after all the POSTs before it. -/
def Answered (o : Oracle) : List Post → List Post → Prop
  | _, [] => True
  | hist, x :: xs => x.ok = o hist x.url x.payload ∧ Answered o (hist ++ [x]) xs

/-- The first `k` backoff delays, starting from `d`. -/
def delays : Nat → Int → List Int
  | 0, _ => []
  | k + 1, d => d :: delays k (nextDelay d)

/-- The bytes of the ledger file (empty when it does not exist). -/
def ledger (fs : FS) : Str := (readFile fs summaryFile).getD []

/-- Go `dropCR` of `bufio`: the line without one trailing carriage return. -/
def dropCR (line : Str) : Str :=
  if line.getLast? = some (Char.ofNat 13) then line.dropLast else line

/-- Go `MaxScanTokenSize` of `bufio`: the largest buffer of a scanner, in bytes. -/
def maxScanTokenSize : Nat := 64 * 1024

/-- The length of a text in bytes (UTF-8), as the scanner counts it. -/
def byteLen : Str → Nat
  | [] => 0
  | c :: cs => c.utf8Size + byteLen cs

/-- The tokens of a `bufio.Scanner` with the default `ScanLines` and the default
buffer, as `handleSummary` reads the ledger, and whether the scan ended in an
error (`scanner.Err()` is not nil). A token is a line without its end-of-line
marker, a last line without newline included when it is not empty. A line is
cut out of a buffer of at most `maxScanTokenSize` bytes: when the bytes of a
line before its newline, or of a last line without newline, fill the buffer, the
scanner stops with `ErrTooLong`; the tokens before that line were delivered,
none after it is. `cur` is the line under way, reversed. -/
def scanLines : Str → Str → List Str × Bool
  | [], cur =>
    if cur = [] then ([], false)
    else if maxScanTokenSize ≤ byteLen cur then ([], true)
    else ([dropCR cur.reverse], false)
  | c :: cs, cur =>
    if c = newline then
      if maxScanTokenSize ≤ byteLen cur then ([], true)
      else
        match scanLines cs [] with
        | (ts, e) => (dropCR cur.reverse :: ts, e)
    else scanLines cs (c :: cur)

/-- The entries of its listing that a worker loop has still to visit. -/
def PC.pending : PC → List DirEntry
  | PC.scan => []
  | PC.iter files => files
  | PC.claimed _ rest => rest
  | PC.deliver _ _ rest => rest
  | PC.removing _ _ rest => rest
  | PC.appending _ _ rest => rest
  | PC.escalating _ _ rest => rest
  | PC.releasing _ rest => rest

/-- A worker loop is well placed on file system `fs`: it polls one of the two
stores, the names it has still to visit are plain, and the item file it holds,
if any, is an item file of its store whose lock marker exists. -/
def WorkerOK (fs : FS) (wk : Worker) : Prop :=
  (wk.dir = queueDir ∨ wk.dir = priorityDir) ∧
  (∀ f ∈ wk.pc.pending, '/' ∉ f.name) ∧
  (∀ P, wk.pc.holds = some P →
    (∃ n, '/' ∉ n ∧ Ext n = dotJson ∧ P = wk.dir ++ '/' :: n) ∧ fs.find (P ++ dotLock) ≠ none)

/-- No item file is held by two worker loops. -/
def Excl (ws : List Worker) : Prop :=
  ∀ (i j : Nat) (wi wj : Worker) (P : Str), ws[i]? = some wi → ws[j]? = some wj →
    wi.pc.holds = some P → wj.pc.holds = some P → i = j

/-- The invariant of the lock protocol. -/
def Inv (s : Sys) : Prop :=
  (∀ (i : Nat) (wk : Worker), s.workers[i]? = some wk → WorkerOK s.world.fs wk) ∧
    Excl s.workers

/-- The directories `main` makes sure of. -/
def bootDirs : List Str := [['/'], queueDir, priorityDir, summaryDir]

/-- The directories of the file system are exactly those of start-up. -/
def LayoutKept (fs : FS) : Prop := ∀ k, fs.find k = some Node.dir ↔ k ∈ bootDirs

/-- A regular file sits at `path`. -/
def isFile (fs : FS) (path : Str) : Prop := ∃ d, fs.find path = some (Node.file d)

/-- No item file name is present in both stores. -/
def StoresDisjoint (fs : FS) : Prop :=
  ∀ n, '/' ∉ n → Ext n = dotJson →
    ¬ (isFile fs (queueDir ++ '/' :: n) ∧ isFile fs (priorityDir ++ '/' :: n))

/-- The ledger is empty or its last byte is a newline: every line is finished. -/
def Terminated (fs : FS) : Prop := ledger fs = [] ∨ (ledger fs).getLast? = some newline

/-- The enqueue discipline under which the two stores stay disjoint: a request
that `handlePayment` accepts (answers 202) carries an id without a path
separator whose item file is not in the priority store at that moment. A request
that is refused (400 or 500) is under no condition, and neither is a worker
step. -/
def admissible (s : Sys) : Event → Bool
  | Event.request body =>
    decide ((handlePayment body s.world.fs).1 ≠ 202) ||
      match jsonUnmarshal body with
      | some p =>
        decide ('/' ∉ p.ID) &&
          (readFile s.world.fs (Join priorityDir (p.ID ++ dotJson))).isNone
      | none => true
  | Event.work _ => true

/-- Every event of the run is admissible in the state it meets. -/
def allAdmissible (o : Oracle) : Sys → List Event → Bool
  | _, [] => true
  | s, e :: es => admissible s e && allAdmissible o (step o s e) es

/-! ## Sample data -/

/-- An endpoint pair that refuses every POST. -/
def alwaysFail : Oracle := fun _ _ _ => false

/-- An endpoint pair that accepts every POST. -/
def alwaysOk : Oracle := fun _ _ _ => true

/-- The request body `{"id":"p1","amount":"10.00"}`. -/
def sampleBody : Str := "\x7b\"id\":\"p1\",\"amount\":\"10.00\"\x7d".toList

def samplePayment : Payment := ⟨"p1".toList, "10.00".toList⟩

/-- The directory entry of the item file of `p1`. -/
def sampleEntry : DirEntry := ⟨"p1.json".toList, false⟩

/-- The world right after `sampleBody` was accepted on a fresh machine. -/
def sampleNormal : World := ⟨(handlePayment sampleBody bootFS).2, [], []⟩

/-- A world whose priority store holds the item file of `p1`. -/
def samplePriority : World :=
  ⟨bootFS.put "/tmp/priority/p1.json".toList (Node.file sampleBody), [], []⟩

/-- The request body `{"id": "p2", "amount": "5.00", "note": "x"}`. -/
def spacedBody : Str :=
  "\x7b\"id\": \"p2\", \"amount\": \"5.00\", \"note\": \"x\"\x7d".toList

/-- The request body `{"id":"../data/summary","amount":"1"}`. -/
def traversalBody : Str := "\x7b\"id\":\"../data/summary\",\"amount\":\"1\"\x7d".toList

/-- The request body `{"id":"priority/p1","amount":"1"}`. -/
def intoPriorityBody : Str := "\x7b\"id\":\"priority/p1\",\"amount\":\"1\"\x7d".toList

/-- The request body `{"id":"a/b","amount":"1"}`; on a freshly started machine the
directory `/tmp/a` does not exist and the request is answered 500. -/
def refusedBody : Str := "\x7b\"id\":\"a/b\",\"amount\":\"1\"\x7d".toList

/-- A freshly started machine whose ledger already holds one record. -/
def bootWithLedger : FS := bootFS.put summaryFile (Node.file (encodeLine samplePayment))

/-- The events in which `p1` is enqueued and the first normal-store loop
(worker index 1) lists it, claims it, reads it, fails to deliver it, escalates
it and releases it. -/
def escalateRun : List Event :=
  [Event.request sampleBody, Event.work 1, Event.work 1, Event.work 1, Event.work 1,
    Event.work 1, Event.work 1]

/-- The canonical encoding `{"id":"p2","amount":"5.00"}`. -/
def compactBody : Str := "\x7b\"id\":\"p2\",\"amount\":\"5.00\"\x7d".toList

/-- The world right after `spacedBody` was accepted on a fresh machine. -/
def spacedNormal : World := ⟨(handlePayment spacedBody bootFS).2, [], []⟩

/-- The events in which `p1` is enqueued, the first normal-store loop lists and
claims it, and the second normal-store loop (worker index 3) lists the store, so
that its next entry is the claimed item. -/
def contendRun : List Event :=
  [Event.request sampleBody, Event.work 1, Event.work 1, Event.work 3]

/-- The events in which `p1` is enqueued, the first normal-store loop (worker
index 1) takes it up to and including its escalation but not yet the release of
its marker, and the first priority-store loop (worker index 0) lists its store
and claims the escalated file. -/
def crossStoreRun : List Event :=
  [Event.request sampleBody, Event.work 1, Event.work 1, Event.work 1, Event.work 1,
    Event.work 1, Event.work 0, Event.work 0]

/-- The directory entry of the lock marker of `p1`. -/
def sampleLockEntry : DirEntry := ⟨"p1.json.lock".toList, false⟩

/-- The directory entry of the priority store inside the normal store. -/
def priorityEntry : DirEntry := ⟨"priority".toList, true⟩

/-- A world whose normal store holds an item file that is not JSON. -/
def samplePoison : World :=
  ⟨bootFS.put "/tmp/p1.json".toList (Node.file "not json".toList), [], []⟩

theorem find_erase (fs : FS) (k q : Str) :
    (fs.erase k).find q = if k = q then none else fs.find q := by
  induction fs with
  | nil => simp [FS.erase, FS.find]
  | cons e rest ih =>
    obtain ⟨a, n⟩ := e
    simp only [FS.erase] at ih ⊢
    by_cases hak : a = k
    · subst hak
      by_cases haq : a = q
      · simp [List.filter, FS.find, haq] at ih ⊢
        simpa [haq] using ih
      · simp [List.filter, FS.find, haq] at ih ⊢
        simpa [haq] using ih
    · by_cases hkq : k = q
      · subst hkq
        simp [List.filter, FS.find, hak] at ih ⊢
        simpa using ih
      · simp [List.filter, FS.find, hak, hkq] at ih ⊢
        rw [ih]

theorem find_put (fs : FS) (k q : Str) (n : Node) :
    (fs.put k n).find q = if k = q then some n else fs.find q := by
  by_cases h : k = q
  · simp [FS.put, FS.find, h]
  · simp [FS.put, FS.find, h, find_erase]

theorem erase_of_find_none (fs : FS) (k : Str) (h : fs.find k = none) : fs.erase k = fs := by
  induction fs with
  | nil => rfl
  | cons e rest ih =>
    obtain ⟨a, n⟩ := e
    by_cases hak : a = k
    · simp [FS.find, hak] at h
    · simp only [FS.find, hak, if_false] at h
      have := ih h
      simp only [FS.erase] at this ⊢
      rw [List.filter_cons_of_pos (by simpa using hak), this]

theorem erase_put_of_find_none (fs : FS) (k : Str) (n : Node) (h : fs.find k = none) :
    (fs.put k n).erase k = fs := by
  have := erase_of_find_none fs k h
  simp only [FS.erase, FS.put] at this ⊢
  rw [this, List.filter_cons_of_neg (by simp), this]

/-! ## Lemmas on paths -/

theorem splitSlash_plain (n : Str) (h : '/' ∉ n) : splitSlash n = [n] := by
  induction n with
  | nil => rfl
  | cons c cs ih =>
    have hc : c ≠ '/' := fun e => h (by simp [e])
    have hcs : '/' ∉ cs := fun e => h (by simp [e])
    simp [splitSlash, hc, ih hcs]

theorem extRev_slash (a b acc : Str) : extRev (a ++ '/' :: b) acc = extRev a acc := by
  induction a generalizing acc with
  | nil => simp [extRev]
  | cons c cs ih =>
    simp only [List.cons_append, extRev]
    split
    · rfl
    · split
      · rfl
      · exact ih _

theorem Ext_slash (pre n : Str) : Ext (pre ++ '/' :: n) = Ext n := by
  simp [Ext, extRev_slash]

theorem Ext_lock (q : Str) : Ext (q ++ dotLock) = dotLock := by
  simp [Ext, extRev, dotLock, dotJson]

theorem Ext_json (q : Str) : Ext (q ++ dotJson) = dotJson := by
  simp [Ext, extRev, dotLock, dotJson]

theorem item_name_ne (n : Str) (h : Ext n = dotJson) :
    n ≠ [] ∧ n ≠ ['.'] ∧ n ≠ ['.', '.'] := by
  refine ⟨?_, ?_, ?_⟩ <;> intro e <;> subst e <;> revert h <;> decide

theorem takeWhile_app (p : Char → Bool) (a b : Str) (x : Char)
    (ha : ∀ c ∈ a, p c = true) (hx : p x = false) : (a ++ x :: b).takeWhile p = a := by
  induction a with
  | nil => simp [List.takeWhile, hx]
  | cons c cs ih =>
    have hc : p c = true := ha c (by simp)
    simp [List.takeWhile, hc, ih (fun d hd => ha d (by simp [hd]))]

theorem dropWhile_app (p : Char → Bool) (a b : Str) (x : Char)
    (ha : ∀ c ∈ a, p c = true) (hx : p x = false) : (a ++ x :: b).dropWhile p = x :: b := by
  induction a with
  | nil => simp [List.dropWhile, hx]
  | cons c cs ih =>
    have hc : p c = true := ha c (by simp)
    simp [List.dropWhile, hc, ih (fun d hd => ha d (by simp [hd]))]

theorem parentOf_slash (pre n : Str) (hn : '/' ∉ n) (hpre : pre ≠ []) :
    parentOf (pre ++ '/' :: n) = pre := by
  have h1 : ((pre ++ '/' :: n).reverse.dropWhile (fun c => c ≠ '/')) = '/' :: pre.reverse := by
    rw [List.reverse_append, List.reverse_cons, List.append_assoc]
    apply dropWhile_app
    · intro c hc
      have : c ≠ '/' := fun e => hn (by simpa [e] using hc)
      simpa using this
    · simp
  simp only [parentOf, h1]
  simp [hpre]

theorem Base_slash (pre n : Str) (hn : '/' ∉ n) (hne : n ≠ []) :
    Base (pre ++ '/' :: n) = n := by
  have hrev : (pre ++ '/' :: n).reverse = n.reverse ++ '/' :: pre.reverse := by simp
  have h1 : (pre ++ '/' :: n).reverse.dropWhile (fun c => c = '/') =
      n.reverse ++ '/' :: pre.reverse := by
    rw [hrev]
    cases hr : n.reverse with
    | nil => simp at hr; exact absurd hr hne
    | cons c cs =>
      have : c ∈ n := by
        have : c ∈ n.reverse := by simp [hr]
        simpa using this
      have hc : c ≠ '/' := fun e => hn (e ▸ this)
      simp [List.dropWhile, hc]
  have h2 : (n.reverse ++ '/' :: pre.reverse).takeWhile (fun c => c ≠ '/') = n.reverse := by
    apply takeWhile_app
    · intro c hc
      have : c ≠ '/' := fun e => hn (by simpa [e] using hc)
      simpa using this
    · simp
  have hne2 : pre ++ '/' :: n ≠ [] := by simp
  simp only [Base, h1, h2, hne2, if_false]
  simp [hne]

theorem Join_queueDir (n : Str) (hn : '/' ∉ n) (h0 : n ≠ []) (h1 : n ≠ ['.'])
    (h2 : n ≠ ['.', '.']) : Join queueDir n = queueDir ++ '/' :: n := by
  have hs := splitSlash_plain n hn
  simp [Join, Clean, queueDir, splitSlash, hs, cleanStep, h0, h1, h2, joinSlash]

theorem Join_priorityDir (n : Str) (hn : '/' ∉ n) (h0 : n ≠ []) (h1 : n ≠ ['.'])
    (h2 : n ≠ ['.', '.']) : Join priorityDir n = priorityDir ++ '/' :: n := by
  have hs := splitSlash_plain n hn
  simp [Join, Clean, priorityDir, splitSlash, hs, cleanStep, h0, h1, h2, joinSlash]

/-! ## The retry loop -/

theorem sendToEndpoint_sleeps (o : Oracle) (url : Str) (p : Payment) (w : World) :
    (sendToEndpoint o url p w).2.sleeps = w.sleeps := rfl

theorem sendToEndpoint_posts (o : Oracle) (url : Str) (p : Payment) (w : World) :
    (sendToEndpoint o url p w).2.posts =
      w.posts ++ [⟨url, jsonMarshal p, (sendToEndpoint o url p w).1⟩] := rfl

theorem retryLoop_fs (o : Oracle) (p : Payment) (n : Nat) (d : Int) (w : World) :
    (retryLoop o p n d w).2.fs = w.fs := by
  induction n generalizing d w with
  | zero => rfl
  | succ n ih =>
    simp only [retryLoop]
    split
    · rfl
    · split
      · rfl
      · rw [ih]; rfl

theorem retryLoop_shape (o : Oracle) (p : Payment) (n : Nat) (d : Int) (w : World) :
    ∃ k tail, k ≤ n ∧
      (retryLoop o p n d w).2.posts =
        w.posts ++ (List.replicate k (failedAttempt p)).flatten ++ tail ∧
      (((retryLoop o p n d w).1 = true ∧ k < n ∧
          (tail = [⟨mainURL, jsonMarshal p, true⟩] ∨
           tail = [⟨mainURL, jsonMarshal p, false⟩, ⟨fallbackURL, jsonMarshal p, true⟩])) ∨
       ((retryLoop o p n d w).1 = false ∧ k = n ∧ tail = [])) := by
  induction n generalizing d w with
  | zero => exact ⟨0, [], le_refl _, by simp [retryLoop], Or.inr ⟨rfl, rfl, rfl⟩⟩
  | succ n ih =>
    simp only [retryLoop]
    by_cases h1 : (sendToEndpoint o mainURL p w).1 = true
    · refine ⟨0, [⟨mainURL, jsonMarshal p, true⟩], Nat.zero_le _, ?_, Or.inl ⟨by simp [h1], Nat.succ_pos _, Or.inl rfl⟩⟩
      simp [h1, sendToEndpoint_posts]
    · have h1f : (sendToEndpoint o mainURL p w).1 = false := by simpa using h1
      by_cases h2 : (sendToEndpoint o fallbackURL p (sendToEndpoint o mainURL p w).2).1 = true
      · refine ⟨0, [⟨mainURL, jsonMarshal p, false⟩, ⟨fallbackURL, jsonMarshal p, true⟩],
          Nat.zero_le _, ?_, Or.inl ⟨by simp [h1f, h2], Nat.succ_pos _, Or.inr rfl⟩⟩
        simp [h1f, h2, sendToEndpoint_posts]
      · have h2f : (sendToEndpoint o fallbackURL p (sendToEndpoint o mainURL p w).2).1 = false := by
          simpa using h2
        obtain ⟨k, tail, hk, hposts, hres⟩ := ih (nextDelay d)
          { (sendToEndpoint o fallbackURL p (sendToEndpoint o mainURL p w).2).2 with
            sleeps := (sendToEndpoint o fallbackURL p (sendToEndpoint o mainURL p w).2).2.sleeps ++ [d] }
        refine ⟨k + 1, tail, Nat.succ_le_succ hk, ?_, ?_⟩
        · simp only [h1f, h2f, Bool.false_eq_true, if_false, hposts]
          simp [sendToEndpoint_posts, h1f, h2f, List.replicate_succ, failedAttempt]
        · simp only [h1f, h2f, Bool.false_eq_true, if_false]
          rcases hres with ⟨a, b, c⟩ | ⟨a, b, c⟩
          · exact Or.inl ⟨a, Nat.succ_lt_succ b, c⟩
          · exact Or.inr ⟨a, by rw [b], c⟩

theorem retryLoop_answered (o : Oracle) (p : Payment) (n : Nat) (d : Int) (w : World) :
    ∃ new, (retryLoop o p n d w).2.posts = w.posts ++ new ∧ Answered o w.posts new := by
  induction n generalizing d w with
  | zero => exact ⟨[], by simp [retryLoop], trivial⟩
  | succ n ih =>
    simp only [retryLoop]
    by_cases h1 : (sendToEndpoint o mainURL p w).1 = true
    · refine ⟨[⟨mainURL, jsonMarshal p, (sendToEndpoint o mainURL p w).1⟩], ?_, ⟨rfl, trivial⟩⟩
      simp [h1, sendToEndpoint_posts]
    · have h1f : (sendToEndpoint o mainURL p w).1 = false := by simpa using h1
      by_cases h2 : (sendToEndpoint o fallbackURL p (sendToEndpoint o mainURL p w).2).1 = true
      · refine ⟨[⟨mainURL, jsonMarshal p, (sendToEndpoint o mainURL p w).1⟩,
          ⟨fallbackURL, jsonMarshal p,
            (sendToEndpoint o fallbackURL p (sendToEndpoint o mainURL p w).2).1⟩], ?_,
          ⟨rfl, rfl, trivial⟩⟩
        simp [h1f, h2, sendToEndpoint_posts]
      · have h2f : (sendToEndpoint o fallbackURL p (sendToEndpoint o mainURL p w).2).1 = false := by
          simpa using h2
        obtain ⟨new, hposts, hans⟩ := ih (nextDelay d)
          { (sendToEndpoint o fallbackURL p (sendToEndpoint o mainURL p w).2).2 with
            sleeps := (sendToEndpoint o fallbackURL p (sendToEndpoint o mainURL p w).2).2.sleeps ++ [d] }
        refine ⟨⟨mainURL, jsonMarshal p, (sendToEndpoint o mainURL p w).1⟩ ::
          ⟨fallbackURL, jsonMarshal p,
            (sendToEndpoint o fallbackURL p (sendToEndpoint o mainURL p w).2).1⟩ :: new, ?_,
          ⟨rfl, rfl, ?_⟩⟩
        · simp only [h1f, h2f, Bool.false_eq_true, if_false, hposts]
          simp [sendToEndpoint_posts, h1f, h2f]
        · have e : (sendToEndpoint o fallbackURL p (sendToEndpoint o mainURL p w).2).2.posts =
              w.posts ++ [⟨mainURL, jsonMarshal p, (sendToEndpoint o mainURL p w).1⟩] ++
                [⟨fallbackURL, jsonMarshal p,
                  (sendToEndpoint o fallbackURL p (sendToEndpoint o mainURL p w).2).1⟩] := rfl
          rw [← e]
          exact hans

theorem retryLoop_sleeps (o : Oracle) (p : Payment) (n : Nat) (d : Int) (w : World) :
    ∃ k, k ≤ n ∧ (retryLoop o p n d w).2.sleeps = w.sleeps ++ delays k d ∧
      ((retryLoop o p n d w).1 = false → k = n) := by
  induction n generalizing d w with
  | zero => exact ⟨0, le_refl _, by simp [retryLoop, delays], fun _ => rfl⟩
  | succ n ih =>
    simp only [retryLoop]
    by_cases h1 : (sendToEndpoint o mainURL p w).1 = true
    · exact ⟨0, Nat.zero_le _, by simp [h1, delays, sendToEndpoint_sleeps], by simp [h1]⟩
    · have h1f : (sendToEndpoint o mainURL p w).1 = false := by simpa using h1
      by_cases h2 : (sendToEndpoint o fallbackURL p (sendToEndpoint o mainURL p w).2).1 = true
      · exact ⟨0, Nat.zero_le _, by simp [h1f, h2, delays, sendToEndpoint_sleeps], by simp [h1f, h2]⟩
      · have h2f : (sendToEndpoint o fallbackURL p (sendToEndpoint o mainURL p w).2).1 = false := by
          simpa using h2
        obtain ⟨k, hk, hs, hres⟩ := ih (nextDelay d)
          { (sendToEndpoint o fallbackURL p (sendToEndpoint o mainURL p w).2).2 with
            sleeps := (sendToEndpoint o fallbackURL p (sendToEndpoint o mainURL p w).2).2.sleeps ++ [d] }
        refine ⟨k + 1, Nat.succ_le_succ hk, ?_, ?_⟩
        · simp only [h1f, h2f, Bool.false_eq_true, if_false, hs]
          simp [sendToEndpoint_sleeps, delays]
        · simp only [h1f, h2f, Bool.false_eq_true, if_false]
          intro h; rw [hres h]

theorem retryLoop_frame (o : Oracle) (p : Payment) (n : Nat) (d : Int) (w : World) (fs1 : FS) :
    retryLoop o p n d ⟨fs1, w.posts, w.sleeps⟩ =
      ((retryLoop o p n d w).1,
        ⟨fs1, (retryLoop o p n d w).2.posts, (retryLoop o p n d w).2.sleeps⟩) := by
  induction n generalizing d w with
  | zero => rfl
  | succ n ih =>
    simp only [retryLoop]
    have e1 : (sendToEndpoint o mainURL p ⟨fs1, w.posts, w.sleeps⟩).1 =
        (sendToEndpoint o mainURL p w).1 := rfl
    have e2 : (sendToEndpoint o fallbackURL p
        (sendToEndpoint o mainURL p ⟨fs1, w.posts, w.sleeps⟩).2).1 =
        (sendToEndpoint o fallbackURL p (sendToEndpoint o mainURL p w).2).1 := rfl
    rw [e1, e2]
    split
    · rfl
    · split
      · rfl
      · exact ih (nextDelay d)
          { (sendToEndpoint o fallbackURL p (sendToEndpoint o mainURL p w).2).2 with
            sleeps := (sendToEndpoint o fallbackURL p (sendToEndpoint o mainURL p w).2).2.sleeps ++ [d] }

/-! ## Directory listings -/

theorem mem_insertEntry (e f : DirEntry) (l : List DirEntry) :
    f ∈ insertEntry e l ↔ f = e ∨ f ∈ l := by
  induction l with
  | nil => simp [insertEntry]
  | cons x xs ih =>
    simp only [insertEntry]
    split
    · simp
    · simp only [List.mem_cons, ih]
      tauto

theorem mem_sortEntries (f : DirEntry) (l : List DirEntry) : f ∈ sortEntries l ↔ f ∈ l := by
  induction l with
  | nil => simp [sortEntries]
  | cons e es ih => simp [sortEntries, mem_insertEntry, ih]

theorem dropPre_eq (pre k n : Str) (h : dropPre pre k = some n) : k = pre ++ n := by
  induction pre generalizing k with
  | nil => simp [dropPre] at h; simp [h]
  | cons d ds ih =>
    cases k with
    | nil => simp [dropPre] at h
    | cons c cs =>
      simp only [dropPre] at h
      split at h
      · rename_i hdc
        rw [hdc, ih cs h]; rfl
      · cases h

theorem find_of_mem (fs : FS) (k : Str) (n : Node) (h : (k, n) ∈ fs) : fs.find k ≠ none := by
  induction fs with
  | nil => cases h
  | cons e rest ih =>
    obtain ⟨a, m⟩ := e
    by_cases hak : a = k
    · simp [FS.find, hak]
    · simp only [FS.find, hak, if_false]
      rcases List.mem_cons.mp h with h1 | h1
      · cases h1; exact absurd rfl hak
      · exact ih h1

theorem mem_readDir (fs : FS) (dir : Str) (files : List DirEntry) (f : DirEntry)
    (hroot : dir ≠ ['/']) (h : readDir fs dir = some files) (hf : f ∈ files) :
    fs.find dir = some Node.dir ∧ '/' ∉ f.name ∧ f.name ≠ [] ∧
      fs.find (dir ++ '/' :: f.name) ≠ none ∧
      f.isDir = decide (fs.find (dir ++ '/' :: f.name) = some Node.dir) := by
  unfold readDir at h
  split at h
  · rename_i hd
    refine ⟨hd, ?_⟩
    simp only [Option.some.injEq] at h
    subst h
    obtain ⟨e, he, hmap⟩ := List.mem_filterMap.mp ((mem_sortEntries _ _).mp hf)
    simp only [childName, hroot, if_false] at hmap
    cases hp : dropPre (dir ++ ['/']) e.1 with
    | none => simp [hp] at hmap
    | some n =>
      simp only [hp] at hmap
      split at hmap
      · rename_i hn
        simp only [Option.map_some', Option.some.injEq] at hmap
        have hk : e.1 = dir ++ '/' :: n := by
          have := dropPre_eq _ _ _ hp
          simpa using this
        subst hmap
        refine ⟨hn.2, hn.1, ?_, ?_⟩
        · simp only []
          rw [← hk]
          exact find_of_mem fs e.1 e.2 he
        · simp only []
          rw [← hk]
      · simp at hmap
  · cases h

theorem queueDir_ne_root : queueDir ≠ ['/'] := by decide
theorem priorityDir_ne_root : priorityDir ≠ ['/'] := by decide

/-! ## Distinct paths -/

theorem lock_ne_item (a pre n : Str) (hext : Ext n = dotJson) :
    a ++ dotLock ≠ pre ++ '/' :: n := by
  intro e
  have h1 := Ext_lock a
  rw [e, Ext_slash, hext] at h1
  revert h1
  decide

theorem summary_ne (dir x : Str) (hdir : dir = queueDir ∨ dir = priorityDir) :
    summaryFile ≠ dir ++ '/' :: x := by
  rcases hdir with h | h <;> subst h <;> simp [summaryFile, queueDir, priorityDir]

theorem data_ne (dir x : Str) (hdir : dir = queueDir ∨ dir = priorityDir) :
    summaryDir ≠ dir ++ '/' :: x := by
  rcases hdir with h | h <;> subst h <;> simp [queueDir, priorityDir, summaryDir]

theorem queue_ne_priority (n m : Str) (hn : '/' ∉ n) :
    queueDir ++ '/' :: n ≠ priorityDir ++ '/' :: m := by
  intro e
  apply hn
  simp [queueDir, priorityDir] at e
  simp [e]

theorem slash_not_mem_lock (n : Str) (hn : '/' ∉ n) : '/' ∉ n ++ dotLock := by
  simp [hn, dotLock]

theorem Join_store (dir n : Str) (hdir : dir = queueDir ∨ dir = priorityDir)
    (hn : '/' ∉ n) (hext : Ext n = dotJson) : Join dir n = dir ++ '/' :: n := by
  obtain ⟨h0, h1, h2⟩ := item_name_ne n hext
  rcases hdir with h | h <;> subst h
  · exact Join_queueDir n hn h0 h1 h2
  · exact Join_priorityDir n hn h0 h1 h2

theorem store_ne_nil (dir : Str) (hdir : dir = queueDir ∨ dir = priorityDir) : dir ≠ [] := by
  rcases hdir with h | h <;> subst h <;> decide

theorem store_ne_root (dir : Str) (hdir : dir = queueDir ∨ dir = priorityDir) : dir ≠ ['/'] := by
  rcases hdir with h | h <;> subst h <;> decide

theorem parentOf_lock (dir n : Str) (hdir : dir = queueDir ∨ dir = priorityDir)
    (hn : '/' ∉ n) : parentOf (dir ++ '/' :: n ++ dotLock) = dir := by
  have : dir ++ '/' :: n ++ dotLock = dir ++ '/' :: (n ++ dotLock) := by simp
  rw [this]
  exact parentOf_slash dir _ (slash_not_mem_lock n hn) (store_ne_nil dir hdir)

/-! ## One entry of the listing -/

theorem removeQuiet_file (fs : FS) (k d : Str) (h : fs.find k = some (Node.file d)) :
    removeQuiet fs k = fs.erase k := by
  simp [removeQuiet, remove, h]

theorem processEntry_claimed (o : Oracle) (dir : Str) (f : DirEntry) (w : World) (data : Str)
    (hdir : dir = queueDir ∨ dir = priorityDir) (hplain : '/' ∉ f.name)
    (hnd : f.isDir = false) (hext : Ext f.name = dotJson)
    (hd : w.fs.find dir = some Node.dir)
    (hlock : w.fs.find (dir ++ '/' :: f.name ++ dotLock) = none)
    (hread : w.fs.find (dir ++ '/' :: f.name) = some (Node.file data)) :
    processEntry o dir f w =
      match jsonUnmarshal data with
      | none => w
      | some p =>
        ⟨removeQuiet
          (if (retryLoop o p 5 (100 * millisecond) w).1 then
            appendToSummary p
              ((w.fs.put (dir ++ '/' :: f.name ++ dotLock) (Node.file [])).erase
                (dir ++ '/' :: f.name))
          else
            renameQuiet (w.fs.put (dir ++ '/' :: f.name ++ dotLock) (Node.file []))
              (dir ++ '/' :: f.name) (priorityDir ++ '/' :: f.name))
          (dir ++ '/' :: f.name ++ dotLock),
          (retryLoop o p 5 (100 * millisecond) w).2.posts,
          (retryLoop o p 5 (100 * millisecond) w).2.sleeps⟩ := by
  have hJ := Join_store dir f.name hdir hplain hext
  obtain ⟨h0, h1, h2⟩ := item_name_ne f.name hext
  have hB : Base (dir ++ '/' :: f.name) = f.name := Base_slash dir f.name hplain h0
  have hJp : Join priorityDir f.name = priorityDir ++ '/' :: f.name :=
    Join_store priorityDir f.name (Or.inr rfl) hplain hext
  have hne : dir ++ '/' :: f.name ++ dotLock ≠ dir ++ '/' :: f.name :=
    lock_ne_item _ _ _ hext
  have hopen : openExcl w.fs (dir ++ '/' :: f.name ++ dotLock) =
      some (w.fs.put (dir ++ '/' :: f.name ++ dotLock) (Node.file [])) := by
    unfold openExcl
    rw [parentOf_lock dir f.name hdir hplain, if_pos ⟨hd, hlock⟩]
  have hfind1 : (w.fs.put (dir ++ '/' :: f.name ++ dotLock) (Node.file [])).find
      (dir ++ '/' :: f.name) = some (Node.file data) := by
    rw [find_put, if_neg hne, hread]
  have hrd : readFile (w.fs.put (dir ++ '/' :: f.name ++ dotLock) (Node.file []))
      (dir ++ '/' :: f.name) = some data := by
    unfold readFile
    rw [hfind1]
  have hrel : removeQuiet (w.fs.put (dir ++ '/' :: f.name ++ dotLock) (Node.file []))
      (dir ++ '/' :: f.name ++ dotLock) = w.fs := by
    rw [removeQuiet_file _ _ [] (by rw [find_put, if_pos rfl])]
    exact erase_put_of_find_none _ _ _ hlock
  unfold processEntry
  simp only [hnd, hext, Bool.false_eq_true, ne_eq, not_true_eq_false, or_self, if_false, hJ,
    hopen, hrd, hB, hJp]
  cases hp : jsonUnmarshal data with
  | none => simp only [hrel]
  | some p =>
    simp only []
    have hfr := retryLoop_frame o p 5 (100 * millisecond) w
      (w.fs.put (dir ++ '/' :: f.name ++ dotLock) (Node.file []))
    have hw : ({ w with fs := w.fs.put (dir ++ '/' :: f.name ++ dotLock) (Node.file []) } : World)
        = ⟨w.fs.put (dir ++ '/' :: f.name ++ dotLock) (Node.file []), w.posts, w.sleeps⟩ := rfl
    rw [hw, hfr]
    simp only []
    have hrm : removeQuiet (w.fs.put (dir ++ '/' :: f.name ++ dotLock) (Node.file []))
        (dir ++ '/' :: f.name) =
        (w.fs.put (dir ++ '/' :: f.name ++ dotLock) (Node.file [])).erase (dir ++ '/' :: f.name) :=
      removeQuiet_file _ _ data hfind1
    rw [hrm]

theorem appendToSummary_eq (p : Payment) (fs : FS)
    (hdata : fs.find summaryDir = some Node.dir)
    (hled : fs.find summaryFile ≠ some Node.dir) :
    appendToSummary p fs = fs.put summaryFile (Node.file (ledger fs ++ encodeLine p)) := by
  have hpar : parentOf summaryFile = summaryDir := by decide
  unfold appendToSummary appendFile ledger readFile
  cases h : fs.find summaryFile with
  | none => simp only [hpar, hdata, if_true, Option.getD_none, List.nil_append]
  | some n =>
    cases n with
    | dir => exact absurd h hled
    | file d => simp

theorem readFile_eq_some (fs : FS) (k d : Str) :
    readFile fs k = some d ↔ fs.find k = some (Node.file d) := by
  unfold readFile
  cases h : fs.find k with
  | none => simp
  | some n => cases n <;> simp

/-! ## The encoding has no raw newline -/

theorem lock_ne_of_ext (a k : Str) (h : Ext k ≠ dotLock) : a ++ dotLock ≠ k := by
  intro e
  apply h
  rw [← e, Ext_lock]

theorem ext_item (dir n : Str) (hext : Ext n = dotJson) : Ext (dir ++ '/' :: n) ≠ dotLock := by
  rw [Ext_slash, hext]; decide

theorem ext_summaryFile : Ext summaryFile ≠ dotLock := by decide
theorem ext_summaryDir : Ext summaryDir ≠ dotLock := by decide
theorem ext_priorityDir : Ext priorityDir ≠ dotLock := by decide
theorem retryLoop_payloads (o : Oracle) (p : Payment) (n : Nat) (d : Int) (w : World) :
    ∃ new, (retryLoop o p n d w).2.posts = w.posts ++ new ∧
      ∀ x ∈ new, x.payload = jsonMarshal p := by
  obtain ⟨k, tail, _, hposts, hres⟩ := retryLoop_shape o p n d w
  refine ⟨(List.replicate k (failedAttempt p)).flatten ++ tail, by rw [hposts, List.append_assoc], ?_⟩
  intro x hx
  rcases List.mem_append.mp hx with hx | hx
  · obtain ⟨l, hl, hxl⟩ := List.mem_flatten.mp hx
    have := List.eq_of_mem_replicate hl
    subst this
    simp only [failedAttempt, List.mem_cons, List.mem_singleton, List.not_mem_nil, or_false] at hxl
    rcases hxl with h | h <;> rw [h]
  · rcases hres with ⟨_, _, ht | ht⟩ | ⟨_, _, ht⟩
    · rw [ht] at hx
      simp only [List.mem_singleton] at hx
      rw [hx]
    · rw [ht] at hx
      simp only [List.mem_cons, List.mem_singleton, List.not_mem_nil, or_false] at hx
      rcases hx with h | h <;> rw [h]
    · rw [ht] at hx; cases hx

/-- The file system after a claimed, parseable item was delivered. -/
theorem processEntry_success (o : Oracle) (dir : Str) (f : DirEntry) (w : World) (data : Str)
    (p : Payment)
    (hdir : dir = queueDir ∨ dir = priorityDir) (hplain : '/' ∉ f.name)
    (hnd : f.isDir = false) (hext : Ext f.name = dotJson)
    (hd : w.fs.find dir = some Node.dir)
    (hlock : w.fs.find (dir ++ '/' :: f.name ++ dotLock) = none)
    (hread : w.fs.find (dir ++ '/' :: f.name) = some (Node.file data))
    (hparse : jsonUnmarshal data = some p)
    (hok : (retryLoop o p 5 (100 * millisecond) w).1 = true)
    (hdata : w.fs.find summaryDir = some Node.dir)
    (hled : w.fs.find summaryFile ≠ some Node.dir) :
    (processEntry o dir f w).fs =
      ((((w.fs.put (dir ++ '/' :: f.name ++ dotLock) (Node.file [])).erase
        (dir ++ '/' :: f.name)).put summaryFile
          (Node.file (ledger w.fs ++ encodeLine p))).erase (dir ++ '/' :: f.name ++ dotLock)) := by
  have hL1 : dir ++ '/' :: f.name ++ dotLock ≠ dir ++ '/' :: f.name :=
    lock_ne_of_ext _ _ (ext_item dir f.name hext)
  have hL2 : dir ++ '/' :: f.name ++ dotLock ≠ summaryFile := lock_ne_of_ext _ _ ext_summaryFile
  have hL3 : dir ++ '/' :: f.name ++ dotLock ≠ summaryDir := lock_ne_of_ext _ _ ext_summaryDir
  have hS1 : ¬ (dir ++ '/' :: f.name = summaryFile) := fun e => summary_ne dir f.name hdir e.symm
  have hS2 : ¬ (dir ++ '/' :: f.name = summaryDir) := fun e => data_ne dir f.name hdir e.symm
  rw [processEntry_claimed o dir f w data hdir hplain hnd hext hd hlock hread, hparse]
  simp only [hok, if_true]
  have hdata2 : ((w.fs.put (dir ++ '/' :: f.name ++ dotLock) (Node.file [])).erase
      (dir ++ '/' :: f.name)).find summaryDir = some Node.dir := by
    rw [find_erase, if_neg hS2, find_put, if_neg hL3, hdata]
  have hfs : ((w.fs.put (dir ++ '/' :: f.name ++ dotLock) (Node.file [])).erase
      (dir ++ '/' :: f.name)).find summaryFile = w.fs.find summaryFile := by
    rw [find_erase, if_neg hS1, find_put, if_neg hL2]
  have hled2 : ((w.fs.put (dir ++ '/' :: f.name ++ dotLock) (Node.file [])).erase
      (dir ++ '/' :: f.name)).find summaryFile ≠ some Node.dir := by rw [hfs]; exact hled
  have hledger : ledger ((w.fs.put (dir ++ '/' :: f.name ++ dotLock) (Node.file [])).erase
      (dir ++ '/' :: f.name)) = ledger w.fs := by
    unfold ledger readFile; rw [hfs]
  rw [appendToSummary_eq p _ hdata2 hled2, hledger]
  apply removeQuiet_file _ _ []
  rw [find_put, if_neg (Ne.symm hL2), find_erase, if_neg (Ne.symm hL1), find_put, if_pos rfl]

/-- The file system after a claimed, parseable item exhausted its attempts. -/
theorem processEntry_failure (o : Oracle) (dir : Str) (f : DirEntry) (w : World) (data : Str)
    (p : Payment)
    (hdir : dir = queueDir ∨ dir = priorityDir) (hplain : '/' ∉ f.name)
    (hnd : f.isDir = false) (hext : Ext f.name = dotJson)
    (hd : w.fs.find dir = some Node.dir)
    (hlock : w.fs.find (dir ++ '/' :: f.name ++ dotLock) = none)
    (hread : w.fs.find (dir ++ '/' :: f.name) = some (Node.file data))
    (hparse : jsonUnmarshal data = some p)
    (hfail : (retryLoop o p 5 (100 * millisecond) w).1 = false)
    (hprio : w.fs.find priorityDir = some Node.dir)
    (hnodir : w.fs.find (priorityDir ++ '/' :: f.name) ≠ some Node.dir) :
    (processEntry o dir f w).fs =
      ((((w.fs.put (dir ++ '/' :: f.name ++ dotLock) (Node.file [])).erase
        (dir ++ '/' :: f.name)).put (priorityDir ++ '/' :: f.name)
          (Node.file data)).erase (dir ++ '/' :: f.name ++ dotLock)) := by
  have hL1 : dir ++ '/' :: f.name ++ dotLock ≠ dir ++ '/' :: f.name :=
    lock_ne_of_ext _ _ (ext_item dir f.name hext)
  have hL2 : dir ++ '/' :: f.name ++ dotLock ≠ priorityDir ++ '/' :: f.name :=
    lock_ne_of_ext _ _ (ext_item priorityDir f.name hext)
  have hL3 : dir ++ '/' :: f.name ++ dotLock ≠ priorityDir := lock_ne_of_ext _ _ ext_priorityDir
  rw [processEntry_claimed o dir f w data hdir hplain hnd hext hd hlock hread, hparse]
  simp only [hfail, Bool.false_eq_true, if_false]
  have hfind1 : (w.fs.put (dir ++ '/' :: f.name ++ dotLock) (Node.file [])).find
      (dir ++ '/' :: f.name) = some (Node.file data) := by
    rw [find_put, if_neg hL1, hread]
  have hpar : parentOf (priorityDir ++ '/' :: f.name) = priorityDir :=
    parentOf_slash _ _ hplain (store_ne_nil _ (Or.inr rfl))
  have hren : renameQuiet (w.fs.put (dir ++ '/' :: f.name ++ dotLock) (Node.file []))
      (dir ++ '/' :: f.name) (priorityDir ++ '/' :: f.name) =
      ((w.fs.put (dir ++ '/' :: f.name ++ dotLock) (Node.file [])).erase
        (dir ++ '/' :: f.name)).put (priorityDir ++ '/' :: f.name) (Node.file data) := by
    unfold renameQuiet rename
    rw [hfind1]
    simp only [hpar]
    rw [if_pos ⟨by rw [find_put, if_neg hL3, hprio], by rw [find_put, if_neg hL2]; exact hnodir⟩]
    rfl
  rw [hren]
  apply removeQuiet_file _ _ []
  rw [find_put, if_neg (Ne.symm hL2), find_erase, if_neg (Ne.symm hL1), find_put, if_pos rfl]

/-! ## What the file-system calls keep -/

theorem keep_put (fs : FS) (k q : Str) (n : Node) (h : fs.find q ≠ none) :
    (fs.put k n).find q ≠ none := by
  rw [find_put]; split
  · simp
  · exact h

theorem find_removeQuiet_ne (fs : FS) (k q : Str) (h : k ≠ q) :
    (removeQuiet fs k).find q = fs.find q := by
  unfold removeQuiet remove
  cases hk : fs.find k with
  | none => rfl
  | some n =>
    cases n with
    | file d => simp only [Option.getD_some]; rw [find_erase, if_neg h]
    | dir =>
      simp only []
      split
      · rfl
      · simp only [Option.getD_some]; rw [find_erase, if_neg h]

theorem find_removeQuiet_le (fs : FS) (k q : Str) (n : Node)
    (h : (removeQuiet fs k).find q = some n) : fs.find q = some n := by
  by_cases hkq : k = q
  · subst hkq
    unfold removeQuiet remove at h
    cases hk : fs.find k with
    | none => rw [hk] at h; simp only [Option.getD_none] at h; rw [hk] at h; exact h
    | some m =>
      rw [hk] at h
      cases m with
      | file d => simp only [Option.getD_some] at h; rw [find_erase, if_pos rfl] at h; cases h
      | dir =>
        simp only [] at h
        split at h
        · simp only [Option.getD_none] at h; rw [hk] at h; exact h
        · simp only [Option.getD_some] at h; rw [find_erase, if_pos rfl] at h; cases h
  · rw [find_removeQuiet_ne fs k q hkq] at h; exact h

theorem appendToSummary_cases (p : Payment) (fs : FS) :
    appendToSummary p fs = fs ∨ ∃ d, appendToSummary p fs = fs.put summaryFile (Node.file d) := by
  unfold appendToSummary appendFile
  cases h : fs.find summaryFile with
  | none =>
    simp only []
    by_cases hc : fs.find (parentOf summaryFile) = some Node.dir
    · rw [if_pos hc]; exact Or.inr ⟨_, rfl⟩
    · rw [if_neg hc]; exact Or.inl rfl
  | some n =>
    cases n with
    | dir => exact Or.inl rfl
    | file d => exact Or.inr ⟨_, rfl⟩

theorem keep_appendToSummary (p : Payment) (fs : FS) (q : Str) (h : fs.find q ≠ none) :
    (appendToSummary p fs).find q ≠ none := by
  rcases appendToSummary_cases p fs with e | ⟨d, e⟩ <;> rw [e]
  · exact h
  · exact keep_put _ _ _ _ h

theorem find_appendToSummary_ne (p : Payment) (fs : FS) (q : Str) (h : summaryFile ≠ q) :
    (appendToSummary p fs).find q = fs.find q := by
  rcases appendToSummary_cases p fs with e | ⟨d, e⟩ <;> rw [e]
  rw [find_put, if_neg h]

theorem renameQuiet_cases (fs : FS) (oldp newp : Str) :
    renameQuiet fs oldp newp = fs ∨
      ∃ d, fs.find oldp = some (Node.file d) ∧
        renameQuiet fs oldp newp = (fs.erase oldp).put newp (Node.file d) := by
  unfold renameQuiet rename
  cases h : fs.find oldp with
  | none => exact Or.inl rfl
  | some n =>
    cases n with
    | dir => exact Or.inl rfl
    | file d =>
      simp only []
      by_cases hc : fs.find (parentOf newp) = some Node.dir ∧ fs.find newp ≠ some Node.dir
      · rw [if_pos hc]; exact Or.inr ⟨d, rfl, rfl⟩
      · rw [if_neg hc]; exact Or.inl rfl

theorem keep_renameQuiet (fs : FS) (oldp newp q : Str) (hq : oldp ≠ q)
    (h : fs.find q ≠ none) : (renameQuiet fs oldp newp).find q ≠ none := by
  rcases renameQuiet_cases fs oldp newp with e | ⟨d, _, e⟩ <;> rw [e]
  · exact h
  · apply keep_put
    rw [find_erase, if_neg hq]; exact h

theorem handlePayment_cases (body : Str) (fs : FS) :
    (handlePayment body fs).2 = fs ∨
      ∃ p, jsonUnmarshal body = some p ∧ p.ID ≠ [] ∧
        fs.find (Join queueDir (p.ID ++ dotJson)) ≠ some Node.dir ∧
        handlePayment body fs =
          (202, fs.put (Join queueDir (p.ID ++ dotJson)) (Node.file body)) := by
  unfold handlePayment
  cases h : jsonUnmarshal body with
  | none => exact Or.inl rfl
  | some p =>
    simp only []
    by_cases hid : p.ID = []
    · rw [if_pos hid]; exact Or.inl rfl
    · rw [if_neg hid]
      unfold writeFile
      by_cases hc : Char.ofNat 0 ∉ Join queueDir (p.ID ++ dotJson) ∧
          fs.find (parentOf (Join queueDir (p.ID ++ dotJson))) = some Node.dir ∧
          fs.find (Join queueDir (p.ID ++ dotJson)) ≠ some Node.dir
      · rw [if_pos hc]; exact Or.inr ⟨p, rfl, hid, hc.2.2, rfl⟩
      · rw [if_neg hc]; exact Or.inl rfl

/-- A request answered 202 carried a payment with a non-empty id, and the file
system afterwards is the one before with the body put at the destination. -/
theorem handlePayment_accepted (body : Str) (fs0 fs1 : FS)
    (h : handlePayment body fs0 = (202, fs1)) :
    ∃ p, jsonUnmarshal body = some p ∧ p.ID ≠ [] ∧
      fs0.find (Join queueDir (p.ID ++ dotJson)) ≠ some Node.dir ∧
      fs1 = fs0.put (Join queueDir (p.ID ++ dotJson)) (Node.file body) := by
  unfold handlePayment at h
  cases hp : jsonUnmarshal body with
  | none =>
    rw [hp] at h
    exact absurd (show (400 : Nat) = 202 from congrArg Prod.fst h) (by decide)
  | some p =>
    rw [hp] at h
    simp only [] at h
    by_cases hid : p.ID = []
    · rw [if_pos hid] at h
      exact absurd (show (400 : Nat) = 202 from congrArg Prod.fst h) (by decide)
    · rw [if_neg hid] at h
      unfold writeFile at h
      by_cases hc : Char.ofNat 0 ∉ Join queueDir (p.ID ++ dotJson) ∧
          fs0.find (parentOf (Join queueDir (p.ID ++ dotJson))) = some Node.dir ∧
          fs0.find (Join queueDir (p.ID ++ dotJson)) ≠ some Node.dir
      · rw [if_pos hc] at h
        exact ⟨p, rfl, hid, hc.2.2, (congrArg Prod.snd h).symm⟩
      · rw [if_neg hc] at h
        exact absurd (show (500 : Nat) = 202 from congrArg Prod.fst h) (by decide)

theorem keep_handlePayment (body : Str) (fs : FS) (q : Str) (h : fs.find q ≠ none) :
    (handlePayment body fs).2.find q ≠ none := by
  rcases handlePayment_cases body fs with e | ⟨p, _, _, _, e⟩ <;> rw [e]
  · exact h
  · exact keep_put _ _ _ _ h

/-! ## One step of a worker loop -/

theorem openExcl_cases (fs : FS) (k : Str) :
    openExcl fs k = none ∨ (fs.find k = none ∧ openExcl fs k = some (fs.put k (Node.file []))) := by
  unfold openExcl
  by_cases hc : fs.find (parentOf k) = some Node.dir ∧ fs.find k = none
  · rw [if_pos hc]; exact Or.inr ⟨hc.2, rfl⟩
  · rw [if_neg hc]; exact Or.inl rfl

/-- What a step of a worker loop can be: a step that changes no file and no
hold; a successful claim; a file operation on the held item; the release. -/
theorem workerStep_spec (o : Oracle) (wk : Worker) (w : World) :
    (workerStep o wk w).1.dir = wk.dir ∧
    (((workerStep o wk w).2.fs = w.fs ∧ (workerStep o wk w).1.pc.holds = wk.pc.holds ∧
        ((∀ f ∈ (workerStep o wk w).1.pc.pending, f ∈ wk.pc.pending) ∨
          readDir w.fs wk.dir = some (workerStep o wk w).1.pc.pending)) ∨
     (∃ f rest, wk.pc = PC.iter (f :: rest) ∧ f.isDir = false ∧ Ext f.name = dotJson ∧
        w.fs.find (Join wk.dir f.name ++ dotLock) = none ∧
        (workerStep o wk w).2.fs = w.fs.put (Join wk.dir f.name ++ dotLock) (Node.file []) ∧
        (workerStep o wk w).1.pc = PC.claimed (Join wk.dir f.name) rest) ∨
     (∃ P, wk.pc.holds = some P ∧ (workerStep o wk w).1.pc.holds = some P ∧
        (workerStep o wk w).1.pc.pending = wk.pc.pending ∧
        ((workerStep o wk w).2.fs = removeQuiet w.fs P ∨
         (∃ p, (workerStep o wk w).2.fs = appendToSummary p w.fs) ∨
         (workerStep o wk w).2.fs = renameQuiet w.fs P (Join priorityDir (Base P)))) ∨
     (∃ P, wk.pc.holds = some P ∧ (workerStep o wk w).1.pc.holds = none ∧
        (workerStep o wk w).1.pc.pending = wk.pc.pending ∧
        (workerStep o wk w).2.fs = removeQuiet w.fs (P ++ dotLock))) := by
  obtain ⟨id, dir, pc⟩ := wk
  cases pc with
  | scan =>
    simp only [workerStep]
    cases h : readDir w.fs dir with
    | none =>
      refine ⟨by trivial, Or.inl ⟨by trivial,
        by trivial, Or.inl (fun f hf => hf)⟩⟩
    | some files =>
      refine ⟨by trivial, Or.inl ⟨by trivial,
        by trivial, Or.inr (by trivial)⟩⟩
  | iter files =>
    cases files with
    | nil => exact ⟨rfl, Or.inl ⟨rfl, rfl, Or.inl (fun f hf => hf)⟩⟩
    | cons f rest =>
      simp only [workerStep]
      by_cases hc : f.isDir = true ∨ Ext f.name ≠ dotJson
      · rw [if_pos hc]
        refine ⟨by trivial, Or.inl ⟨by trivial,
          by trivial, Or.inl (fun g hg => List.mem_cons_of_mem _ hg)⟩⟩
      · rw [if_neg hc]
        have hnd : f.isDir = false := by
          cases hd : f.isDir with
          | false => rfl
          | true => exact absurd (Or.inl hd) hc
        have hext : Ext f.name = dotJson := by
          by_contra he; exact hc (Or.inr he)
        rcases openExcl_cases w.fs (Join dir f.name ++ dotLock) with ho | ⟨hl, ho⟩
        · simp only [ho]
          refine ⟨by trivial, Or.inl ⟨by trivial,
            by trivial, Or.inl (fun g hg => List.mem_cons_of_mem _ hg)⟩⟩
        · simp only [ho]
          refine ⟨by trivial, Or.inr (Or.inl ⟨f, rest, by trivial,
            hnd, hext, hl, by trivial, by trivial⟩)⟩
  | claimed path rest =>
    simp only [workerStep]
    cases h : readFile w.fs path with
    | none =>
      refine ⟨by trivial, Or.inl ⟨by trivial,
        by trivial, Or.inl (fun f hf => hf)⟩⟩
    | some data =>
      simp only []
      cases h2 : jsonUnmarshal data with
      | none =>
        refine ⟨by trivial, Or.inl ⟨by trivial,
          by trivial, Or.inl (fun f hf => hf)⟩⟩
      | some p =>
        refine ⟨by trivial, Or.inl ⟨by trivial,
          by trivial, Or.inl (fun f hf => hf)⟩⟩
  | deliver path p rest =>
    refine ⟨rfl, Or.inl ⟨retryLoop_fs _ _ _ _ _, ?_, Or.inl ?_⟩⟩
    · show (if (retryLoop o p 5 (100 * millisecond) w).1 = true then PC.removing path p rest
        else PC.escalating path p rest).holds = some path
      cases (retryLoop o p 5 (100 * millisecond) w).1 <;> rfl
    · show ∀ f ∈ (if (retryLoop o p 5 (100 * millisecond) w).1 = true then PC.removing path p rest
        else PC.escalating path p rest).pending, f ∈ rest
      cases (retryLoop o p 5 (100 * millisecond) w).1 <;> exact fun f hf => hf
  | removing path p rest =>
    exact ⟨rfl, Or.inr (Or.inr (Or.inl ⟨path, rfl, rfl, rfl, Or.inl rfl⟩))⟩
  | appending path p rest =>
    exact ⟨rfl, Or.inr (Or.inr (Or.inl ⟨path, rfl, rfl, rfl, Or.inr (Or.inl ⟨p, rfl⟩)⟩))⟩
  | escalating path p rest =>
    exact ⟨rfl, Or.inr (Or.inr (Or.inl ⟨path, rfl, rfl, rfl, Or.inr (Or.inr rfl)⟩))⟩
  | releasing path rest =>
    exact ⟨rfl, Or.inr (Or.inr (Or.inr ⟨path, rfl, rfl, rfl, rfl⟩))⟩

/-! ## The invariant of the interleaved system -/

theorem held_ne_lock (dir n : Str) (hext : Ext n = dotJson) (a : Str) :
    dir ++ '/' :: n ≠ a ++ dotLock :=
  fun e => lock_ne_of_ext a _ (ext_item dir n hext) e.symm

theorem workerStep_ok (o : Oracle) (wk : Worker) (w : World) (h : WorkerOK w.fs wk) :
    WorkerOK (workerStep o wk w).2.fs (workerStep o wk w).1 := by
  obtain ⟨hdir, hpend, hhold⟩ := h
  obtain ⟨hd, hcase⟩ := workerStep_spec o wk w
  refine ⟨hd ▸ hdir, ?_, ?_⟩
  · rcases hcase with ⟨_, _, hp | hp⟩ | ⟨f, rest, hpc, _, _, _, _, hpc2⟩ | ⟨P, _, _, hp, _⟩ |
      ⟨P, _, _, hp, _⟩
    · exact fun f hf => hpend f (hp f hf)
    · intro f hf
      exact (mem_readDir w.fs wk.dir _ f (store_ne_root _ hdir) hp hf).2.1
    · intro g hg
      rw [hpc2] at hg
      apply hpend g
      rw [hpc]
      exact List.mem_cons_of_mem _ hg
    · rw [hp]; exact hpend
    · rw [hp]; exact hpend
  · intro P hP
    rcases hcase with ⟨hfs, hh, _⟩ | ⟨f, rest, hpc, _, hext, _, hfs, hpc2⟩ | ⟨P0, hh0, hh1, _, hfs⟩ |
      ⟨P0, _, hh1, _, _⟩
    · rw [hfs, hd]
      exact hhold P (hh ▸ hP)
    · rw [hpc2] at hP
      simp only [PC.holds, Option.some.injEq] at hP
      subst hP
      have hplain : '/' ∉ f.name := hpend f (by rw [hpc]; exact List.mem_cons_self _ _)
      refine ⟨⟨f.name, hplain, hext, ?_⟩, ?_⟩
      · rw [hd]; exact Join_store wk.dir f.name hdir hplain hext
      · rw [hfs, find_put, if_pos rfl]; simp
    · rw [hh1] at hP
      simp only [Option.some.injEq] at hP
      subst hP
      obtain ⟨⟨n, hn, hext, hform⟩, hlock⟩ := hhold P0 hh0
      refine ⟨⟨n, hn, hext, by rw [hd]; exact hform⟩, ?_⟩
      have hne : P0 ≠ P0 ++ dotLock := by rw [hform]; exact held_ne_lock _ _ hext _
      rcases hfs with e | ⟨p, e⟩ | e <;> rw [e]
      · rw [find_removeQuiet_ne _ _ _ hne]; exact hlock
      · exact keep_appendToSummary _ _ _ hlock
      · exact keep_renameQuiet _ _ _ _ hne hlock
    · rw [hh1] at hP; cases hP

theorem workerStep_keep (o : Oracle) (wk : Worker) (w : World) (q : Str)
    (hq : w.fs.find q ≠ none)
    (hne : ∀ P, wk.pc.holds = some P → P ≠ q ∧ P ++ dotLock ≠ q) :
    (workerStep o wk w).2.fs.find q ≠ none := by
  obtain ⟨_, hcase⟩ := workerStep_spec o wk w
  rcases hcase with ⟨hfs, _, _⟩ | ⟨f, rest, _, _, _, _, hfs, _⟩ | ⟨P0, hh0, _, _, hfs⟩ |
    ⟨P0, hh0, _, _, hfs⟩
  · rw [hfs]; exact hq
  · rw [hfs]; exact keep_put _ _ _ _ hq
  · rcases hfs with e | ⟨p, e⟩ | e <;> rw [e]
    · rw [find_removeQuiet_ne _ _ _ (hne P0 hh0).1]; exact hq
    · exact keep_appendToSummary _ _ _ hq
    · exact keep_renameQuiet _ _ _ _ (hne P0 hh0).1 hq
  · rw [hfs, find_removeQuiet_ne _ _ _ (hne P0 hh0).2]; exact hq

theorem workerStep_holds (o : Oracle) (wk : Worker) (w : World) (P : Str)
    (h : (workerStep o wk w).1.pc.holds = some P) :
    wk.pc.holds = some P ∨ w.fs.find (P ++ dotLock) = none := by
  obtain ⟨_, hcase⟩ := workerStep_spec o wk w
  rcases hcase with ⟨_, hh, _⟩ | ⟨f, rest, _, _, _, hl, _, hpc2⟩ | ⟨P0, hh0, hh1, _, _⟩ |
    ⟨P0, _, hh1, _, _⟩
  · exact Or.inl (hh ▸ h)
  · rw [hpc2] at h
    simp only [PC.holds, Option.some.injEq] at h
    subst h
    exact Or.inr hl
  · rw [hh1] at h
    simp only [Option.some.injEq] at h
    subst h
    exact Or.inl hh0
  · rw [hh1] at h; cases h

theorem getElem?_set_cases (l : List Worker) (k i : Nat) (b a : Worker)
    (h : (l.set k b)[i]? = some a) : (i = k ∧ a = b) ∨ (i ≠ k ∧ l[i]? = some a) := by
  rw [List.getElem?_set] at h
  by_cases hki : k = i
  · rw [if_pos hki] at h
    split at h
    · simp only [Option.some.injEq] at h
      exact Or.inl ⟨hki.symm, h.symm⟩
    · cases h
  · rw [if_neg hki] at h
    exact Or.inr ⟨fun e => hki e.symm, h⟩

theorem step_inv (o : Oracle) (s : Sys) (e : Event) (h : Inv s) : Inv (step o s e) := by
  obtain ⟨hok, hex⟩ := h
  cases e with
  | request body =>
    refine ⟨?_, hex⟩
    intro i wk hi
    obtain ⟨a, b, c⟩ := hok i wk hi
    exact ⟨a, b, fun P hP => ⟨(c P hP).1, keep_handlePayment _ _ _ (c P hP).2⟩⟩
  | work k =>
    simp only [step]
    cases hk : s.workers[k]? with
    | none => exact ⟨hok, hex⟩
    | some wk =>
      simp only []
      have hwk := hok k wk hk
      constructor
      · intro i wi hi
        rcases getElem?_set_cases _ _ _ _ _ hi with ⟨_, rfl⟩ | ⟨hik, hi2⟩
        · exact workerStep_ok o wk s.world hwk
        · obtain ⟨a, b, c⟩ := hok i wi hi2
          refine ⟨a, b, fun P hP => ⟨(c P hP).1, ?_⟩⟩
          apply workerStep_keep o wk s.world _ (c P hP).2
          intro P0 hP0
          obtain ⟨⟨n, _, hext, hform⟩, _⟩ := hwk.2.2 P0 hP0
          constructor
          · rw [hform]; exact held_ne_lock _ _ hext _
          · intro e
            have hPP : P0 = P := List.append_cancel_right e
            subst hPP
            exact hik (hex i k wi wk P0 hi2 hk hP hP0)
      · intro i j wi wj P hi hj hPi hPj
        rcases getElem?_set_cases _ _ _ _ _ hi with ⟨hik, rfl⟩ | ⟨hik, hi2⟩ <;>
          rcases getElem?_set_cases _ _ _ _ _ hj with ⟨hjk, rfl⟩ | ⟨hjk, hj2⟩
        · rw [hik, hjk]
        · rcases workerStep_holds o wk s.world P hPi with hold | hnone
          · rw [hik]; exact hex k j wk wj P hk hj2 hold hPj
          · exact absurd hnone ((hok j wj hj2).2.2 P hPj).2
        · rcases workerStep_holds o wk s.world P hPj with hold | hnone
          · rw [hjk]; exact hex i k wi wk P hi2 hk hPi hold
          · exact absurd hnone ((hok i wi hi2).2.2 P hPi).2
        · exact hex i j wi wj P hi2 hj2 hPi hPj

theorem run_inv (o : Oracle) (s : Sys) (evs : List Event) (h : Inv s) : Inv (run o s evs) := by
  induction evs generalizing s with
  | nil => exact h
  | cons e es ih => exact ih (step o s e) (step_inv o s e h)

theorem mem_startWorkers (n : Nat) (wk : Worker) (h : wk ∈ startWorkers n) :
    (wk.dir = queueDir ∨ wk.dir = priorityDir) ∧ wk.pc = PC.scan := by
  unfold startWorkers at h
  obtain ⟨l, hl, hwl⟩ := List.mem_flatten.mp h
  obtain ⟨i, _, rfl⟩ := List.mem_map.mp hl
  simp only [List.mem_cons, List.mem_singleton, List.not_mem_nil, or_false] at hwl
  rcases hwl with e | e <;> subst e
  · exact ⟨Or.inr rfl, rfl⟩
  · exact ⟨Or.inl rfl, rfl⟩

theorem init_inv (fs : FS) : Inv (initSys fs) := by
  constructor
  · intro i wk hi
    obtain ⟨hd, hpc⟩ := mem_startWorkers workerCount wk (List.getElem?_mem hi)
    refine ⟨hd, ?_, ?_⟩
    · rw [hpc]; intro f hf; cases hf
    · rw [hpc]; intro P hP; cases hP
  · intro i j wi wj P hi _ hPi _
    obtain ⟨_, hpc⟩ := mem_startWorkers workerCount wi (List.getElem?_mem hi)
    rw [hpc] at hPi; cases hPi

/-! ## The two stores stay disjoint under the enqueue discipline -/

theorem isFile_put_ne (fs : FS) (k q : Str) (n : Node) (h : k ≠ q) :
    isFile (fs.put k n) q ↔ isFile fs q := by
  unfold isFile; rw [find_put, if_neg h]

theorem isFile_removeQuiet (fs : FS) (k q : Str) (h : isFile (removeQuiet fs k) q) :
    isFile fs q := by
  obtain ⟨d, hd⟩ := h
  exact ⟨d, find_removeQuiet_le fs k q _ hd⟩

theorem storesDisjoint_mono (fs fs1 : FS) (h : StoresDisjoint fs)
    (hq : ∀ n, '/' ∉ n → Ext n = dotJson →
      isFile fs1 (queueDir ++ '/' :: n) → isFile fs (queueDir ++ '/' :: n))
    (hp : ∀ n, '/' ∉ n → Ext n = dotJson →
      isFile fs1 (priorityDir ++ '/' :: n) → isFile fs (priorityDir ++ '/' :: n)) :
    StoresDisjoint fs1 :=
  fun n hn hext ⟨a, b⟩ => h n hn hext ⟨hq n hn hext a, hp n hn hext b⟩

theorem storesDisjoint_rename (fs : FS) (dir m : Str) (hdir : dir = queueDir ∨ dir = priorityDir)
    (h : StoresDisjoint fs) :
    StoresDisjoint (renameQuiet fs (dir ++ '/' :: m) (priorityDir ++ '/' :: m)) := by
  rcases renameQuiet_cases fs (dir ++ '/' :: m) (priorityDir ++ '/' :: m) with e | ⟨dt, hold, e⟩
  · rw [e]; exact h
  · rw [e]
    intro n hn hextn ⟨⟨d1, h1⟩, ⟨d2, h2⟩⟩
    have hqp : priorityDir ++ '/' :: m ≠ queueDir ++ '/' :: n :=
      fun x => queue_ne_priority n m hn x.symm
    rw [find_put, if_neg hqp, find_erase] at h1
    by_cases hP : dir ++ '/' :: m = queueDir ++ '/' :: n
    · rw [if_pos hP] at h1; cases h1
    · rw [if_neg hP] at h1
      rw [find_put] at h2
      by_cases hnew : priorityDir ++ '/' :: m = priorityDir ++ '/' :: n
      · have hmn : m = n := by
          have := List.append_cancel_left hnew
          simpa using this
        subst hmn
        rcases hdir with hd | hd
        · exact hP (by rw [hd])
        · rw [hd] at hold
          exact h m hn hextn ⟨⟨d1, h1⟩, ⟨dt, hold⟩⟩
      · rw [if_neg hnew, find_erase] at h2
        by_cases hP2 : dir ++ '/' :: m = priorityDir ++ '/' :: n
        · rw [if_pos hP2] at h2; cases h2
        · rw [if_neg hP2] at h2
          exact h n hn hextn ⟨⟨d1, h1⟩, ⟨d2, h2⟩⟩

theorem storesDisjoint_workerStep (o : Oracle) (wk : Worker) (w : World) (hok : WorkerOK w.fs wk)
    (h : StoresDisjoint w.fs) : StoresDisjoint (workerStep o wk w).2.fs := by
  obtain ⟨hdir, hpend, hhold⟩ := hok
  obtain ⟨_, hcase⟩ := workerStep_spec o wk w
  rcases hcase with ⟨hfs, _, _⟩ | ⟨f, rest, _, _, _, _, hfs, _⟩ | ⟨P0, hh0, _, _, hfs⟩ |
    ⟨P0, _, _, _, hfs⟩
  · rw [hfs]; exact h
  · rw [hfs]
    apply storesDisjoint_mono _ _ h
    · intro n _ hext hf
      exact (isFile_put_ne _ _ _ _ (lock_ne_of_ext _ _ (ext_item queueDir n hext))).mp hf
    · intro n _ hext hf
      exact (isFile_put_ne _ _ _ _ (lock_ne_of_ext _ _ (ext_item priorityDir n hext))).mp hf
  · rcases hfs with e | ⟨p, e⟩ | e <;> rw [e]
    · exact storesDisjoint_mono _ _ h (fun n _ _ hf => isFile_removeQuiet _ _ _ hf)
        (fun n _ _ hf => isFile_removeQuiet _ _ _ hf)
    · apply storesDisjoint_mono _ _ h
      · intro n _ _ ⟨d, hd⟩
        rw [find_appendToSummary_ne _ _ _ (summary_ne queueDir n (Or.inl rfl))] at hd
        exact ⟨d, hd⟩
      · intro n _ _ ⟨d, hd⟩
        rw [find_appendToSummary_ne _ _ _ (summary_ne priorityDir n (Or.inr rfl))] at hd
        exact ⟨d, hd⟩
    · obtain ⟨⟨m, hm, hext, hform⟩, _⟩ := hhold P0 hh0
      obtain ⟨h0, _, _⟩ := item_name_ne m hext
      rw [hform, Base_slash wk.dir m hm h0, Join_store priorityDir m (Or.inr rfl) hm hext]
      exact storesDisjoint_rename w.fs wk.dir m hdir h
  · rw [hfs]
    exact storesDisjoint_mono _ _ h (fun n _ _ hf => isFile_removeQuiet _ _ _ hf)
      (fun n _ _ hf => isFile_removeQuiet _ _ _ hf)

theorem slash_not_mem_json (n : Str) (hn : '/' ∉ n) : '/' ∉ n ++ dotJson := by
  simp [hn, dotJson]

theorem storesDisjoint_request (s : Sys) (body : Str) (hadm : admissible s (Event.request body) = true)
    (h : StoresDisjoint s.world.fs) : StoresDisjoint (handlePayment body s.world.fs).2 := by
  rcases handlePayment_cases body s.world.fs with e | ⟨p, hp, _, _, e⟩
  · rw [e]; exact h
  · have hacc : (handlePayment body s.world.fs).1 = 202 := by rw [e]
    simp only [admissible, hp, hacc, ne_eq, not_true_eq_false, decide_False, Bool.false_or,
      Bool.and_eq_true, decide_eq_true_eq, Option.isNone_iff_eq_none] at hadm
    obtain ⟨hplain, hnone⟩ := hadm
    rw [e]
    have hpl2 := slash_not_mem_json p.ID hplain
    have hext := Ext_json p.ID
    rw [Join_store priorityDir _ (Or.inr rfl) hpl2 hext] at hnone
    rw [Join_store queueDir _ (Or.inl rfl) hpl2 hext]
    intro n hn hextn ⟨⟨d1, h1⟩, ⟨d2, h2⟩⟩
    have hqp : queueDir ++ '/' :: (p.ID ++ dotJson) ≠ priorityDir ++ '/' :: n :=
      queue_ne_priority _ n hpl2
    simp only [] at h1 h2
    rw [find_put, if_neg hqp] at h2
    rw [find_put] at h1
    by_cases hsame : queueDir ++ '/' :: (p.ID ++ dotJson) = queueDir ++ '/' :: n
    · have hmn : p.ID ++ dotJson = n := by
        have := List.append_cancel_left hsame
        simpa using this
      subst hmn
      rw [(readFile_eq_some _ _ _).mpr h2] at hnone
      cases hnone
    · rw [if_neg hsame] at h1
      exact h n hn hextn ⟨⟨d1, h1⟩, ⟨d2, h2⟩⟩

theorem run_storesDisjoint (o : Oracle) (s : Sys) (evs : List Event) (hinv : Inv s)
    (h : StoresDisjoint s.world.fs) (hadm : allAdmissible o s evs = true) :
    StoresDisjoint (run o s evs).world.fs := by
  induction evs generalizing s with
  | nil => exact h
  | cons e es ih =>
    simp only [allAdmissible, Bool.and_eq_true] at hadm
    apply ih (step o s e) (step_inv o s e hinv) _ hadm.2
    cases e with
    | request body => exact storesDisjoint_request s body hadm.1 h
    | work k =>
      simp only [step]
      cases hk : s.workers[k]? with
      | none => exact h
      | some wk => exact storesDisjoint_workerStep o wk s.world (hinv.1 k wk hk) h

theorem bootFS_no_file (k d : Str) : bootFS.find k ≠ some (Node.file d) := by
  simp only [bootFS, FS.find]
  repeat' split
  all_goals simp

theorem storesDisjoint_bootFS : StoresDisjoint bootFS :=
  fun _ _ _ ⟨⟨d, h⟩, _⟩ => bootFS_no_file _ d h

/-! ## The lines of the ledger stay finished -/

theorem ledger_congr (fs fs1 : FS) (h : fs1.find summaryFile = fs.find summaryFile) :
    ledger fs1 = ledger fs := by
  unfold ledger readFile
  rw [h]

theorem terminated_congr (fs fs1 : FS) (h : fs1.find summaryFile = fs.find summaryFile)
    (ht : Terminated fs) : Terminated fs1 := by
  unfold Terminated
  rw [ledger_congr fs fs1 h]
  exact ht

theorem ledger_appendToSummary (p : Payment) (fs : FS) :
    ledger (appendToSummary p fs) = ledger fs ∨
      ledger (appendToSummary p fs) = ledger fs ++ encodeLine p := by
  unfold appendToSummary appendFile
  cases h : fs.find summaryFile with
  | none =>
    simp only []
    by_cases hc : fs.find (parentOf summaryFile) = some Node.dir
    · rw [if_pos hc]
      right
      simp only [ledger, readFile, find_put, if_pos, h, Option.getD_some, Option.getD_none,
        List.nil_append]
    · rw [if_neg hc]
      exact Or.inl rfl
  | some n =>
    cases n with
    | dir => exact Or.inl rfl
    | file d =>
      right
      simp only [ledger, readFile, find_put, if_pos, h, Option.getD_some]

theorem terminated_appendToSummary (p : Payment) (fs : FS) (ht : Terminated fs) :
    Terminated (appendToSummary p fs) := by
  unfold Terminated
  rcases ledger_appendToSummary p fs with e | e <;> rw [e]
  · exact ht
  · right
    unfold encodeLine
    rw [← List.append_assoc, List.getLast?_concat]

theorem terminated_workerStep (o : Oracle) (wk : Worker) (w : World) (hok : WorkerOK w.fs wk)
    (h : Terminated w.fs) : Terminated (workerStep o wk w).2.fs := by
  obtain ⟨hdir, _, hhold⟩ := hok
  obtain ⟨_, hcase⟩ := workerStep_spec o wk w
  rcases hcase with ⟨hfs, _, _⟩ | ⟨f, rest, _, _, _, _, hfs, _⟩ | ⟨P0, hh0, _, _, hfs⟩ |
    ⟨P0, _, _, _, hfs⟩
  · rw [hfs]; exact h
  · rw [hfs]
    apply terminated_congr _ _ _ h
    rw [find_put, if_neg (lock_ne_of_ext _ _ ext_summaryFile)]
  · obtain ⟨⟨m, hm, hext, hform⟩, _⟩ := hhold P0 hh0
    have hP : P0 ≠ summaryFile := by
      rw [hform]
      exact (summary_ne wk.dir m hdir).symm
    rcases hfs with e | ⟨p, e⟩ | e <;> rw [e]
    · exact terminated_congr _ _ (find_removeQuiet_ne _ _ _ hP) h
    · exact terminated_appendToSummary p w.fs h
    · obtain ⟨h0, _, _⟩ := item_name_ne m hext
      rw [hform, Base_slash wk.dir m hm h0, Join_store priorityDir m (Or.inr rfl) hm hext]
      rcases renameQuiet_cases w.fs (wk.dir ++ '/' :: m) (priorityDir ++ '/' :: m) with
        e2 | ⟨d, _, e2⟩ <;> rw [e2]
      · exact h
      · apply terminated_congr _ _ _ h
        rw [find_put, if_neg (summary_ne priorityDir m (Or.inr rfl)).symm, find_erase,
          if_neg (summary_ne wk.dir m hdir).symm]
  · rw [hfs]
    exact terminated_congr _ _
      (find_removeQuiet_ne _ _ _ (lock_ne_of_ext _ _ ext_summaryFile)) h

theorem terminated_request (s : Sys) (body : Str)
    (hadm : admissible s (Event.request body) = true)
    (h : Terminated s.world.fs) : Terminated (handlePayment body s.world.fs).2 := by
  rcases handlePayment_cases body s.world.fs with e | ⟨p, hp, _, _, e⟩
  · rw [e]; exact h
  · have hacc : (handlePayment body s.world.fs).1 = 202 := by rw [e]
    simp only [admissible, hp, hacc, ne_eq, not_true_eq_false, decide_False, Bool.false_or,
      Bool.and_eq_true, decide_eq_true_eq, Option.isNone_iff_eq_none] at hadm
    rw [e]
    have hpl2 := slash_not_mem_json p.ID hadm.1
    apply terminated_congr _ _ _ h
    simp only []
    rw [Join_store queueDir _ (Or.inl rfl) hpl2 (Ext_json p.ID), find_put,
      if_neg (summary_ne queueDir _ (Or.inl rfl)).symm]

/-- Under the enqueue discipline the ledger of a freshly started machine is at
every moment empty or ended by a newline: a record is never appended to an
unfinished line. -/
theorem ledger_terminated_under_discipline (o : Oracle) (s : Sys) (evs : List Event)
    (hinv : Inv s) (h : Terminated s.world.fs) (hadm : allAdmissible o s evs = true) :
    Terminated (run o s evs).world.fs := by
  induction evs generalizing s with
  | nil => exact h
  | cons e es ih =>
    simp only [allAdmissible, Bool.and_eq_true] at hadm
    apply ih (step o s e) (step_inv o s e hinv) _ hadm.2
    cases e with
    | request body => exact terminated_request s body hadm.1 h
    | work k =>
      simp only [step]
      cases hk : s.workers[k]? with
      | none => exact h
      | some wk => exact terminated_workerStep o wk s.world (hinv.1 k wk hk) h

theorem terminated_bootFS : Terminated bootFS := Or.inl (by decide)

/-! ## The directories never change -/

theorem layout_not_dir (fs : FS) (k : Str) (h : LayoutKept fs) (hext : Ext k ≠ []) :
    fs.find k ≠ some Node.dir := by
  intro hk
  have hm := (h k).mp hk
  simp only [bootDirs, List.mem_cons, List.mem_singleton, List.not_mem_nil, or_false] at hm
  rcases hm with e | e | e | e <;> subst e <;> revert hext <;> decide

theorem layout_put (fs : FS) (k d : Str) (h : LayoutKept fs) (hk : fs.find k ≠ some Node.dir) :
    LayoutKept (fs.put k (Node.file d)) := by
  intro q
  rw [find_put]
  by_cases e : k = q
  · subst e
    rw [if_pos rfl]
    constructor
    · intro x; cases x
    · intro x; exact absurd ((h k).mpr x) hk
  · rw [if_neg e]; exact h q

theorem layout_erase (fs : FS) (k : Str) (h : LayoutKept fs) (hk : fs.find k ≠ some Node.dir) :
    LayoutKept (fs.erase k) := by
  intro q
  rw [find_erase]
  by_cases e : k = q
  · subst e
    rw [if_pos rfl]
    constructor
    · intro x; cases x
    · intro x; exact absurd ((h k).mpr x) hk
  · rw [if_neg e]; exact h q

theorem layout_removeQuiet (fs : FS) (k : Str) (h : LayoutKept fs)
    (hk : fs.find k ≠ some Node.dir) : LayoutKept (removeQuiet fs k) := by
  unfold removeQuiet remove
  cases hf : fs.find k with
  | none => exact h
  | some n =>
    cases n with
    | dir => exact absurd hf hk
    | file d => exact layout_erase fs k h hk

theorem ext_lock_ne_nil (a : Str) : Ext (a ++ dotLock) ≠ [] := by
  rw [Ext_lock]; decide

theorem ext_item_ne_nil (dir n : Str) (hext : Ext n = dotJson) : Ext (dir ++ '/' :: n) ≠ [] := by
  rw [Ext_slash, hext]; decide

theorem layout_workerStep (o : Oracle) (wk : Worker) (w : World) (hok : WorkerOK w.fs wk)
    (h : LayoutKept w.fs) : LayoutKept (workerStep o wk w).2.fs := by
  obtain ⟨_, _, hhold⟩ := hok
  obtain ⟨_, hcase⟩ := workerStep_spec o wk w
  rcases hcase with ⟨hfs, _, _⟩ | ⟨f, rest, _, _, _, hl, hfs, _⟩ | ⟨P0, hh0, _, _, hfs⟩ |
    ⟨P0, _, _, _, hfs⟩
  · rw [hfs]; exact h
  · rw [hfs]; exact layout_put _ _ _ h (by rw [hl]; simp)
  · obtain ⟨⟨m, hm, hext, hform⟩, _⟩ := hhold P0 hh0
    have hP : w.fs.find P0 ≠ some Node.dir :=
      layout_not_dir _ _ h (by rw [hform]; exact ext_item_ne_nil _ _ hext)
    rcases hfs with e | ⟨p, e⟩ | e <;> rw [e]
    · exact layout_removeQuiet _ _ h hP
    · rcases appendToSummary_cases p w.fs with e2 | ⟨d, e2⟩ <;> rw [e2]
      · exact h
      · exact layout_put _ _ _ h (layout_not_dir _ _ h (by decide))
    · rcases renameQuiet_cases w.fs P0 (Join priorityDir (Base P0)) with e2 | ⟨d, _, e2⟩ <;>
        rw [e2]
      · exact h
      · obtain ⟨h0, _, _⟩ := item_name_ne m hext
        have hnew : Join priorityDir (Base P0) = priorityDir ++ '/' :: m := by
          rw [hform, Base_slash wk.dir m hm h0, Join_store priorityDir m (Or.inr rfl) hm hext]
        have hl2 := layout_erase _ P0 h hP
        exact layout_put _ _ _ hl2
          (layout_not_dir _ _ hl2 (by rw [hnew]; exact ext_item_ne_nil _ _ hext))
  · rw [hfs]
    exact layout_removeQuiet _ _ h (layout_not_dir _ _ h (ext_lock_ne_nil P0))

theorem run_layout (o : Oracle) (s : Sys) (evs : List Event) (hinv : Inv s)
    (h : LayoutKept s.world.fs) : LayoutKept (run o s evs).world.fs := by
  induction evs generalizing s with
  | nil => exact h
  | cons e es ih =>
    apply ih (step o s e) (step_inv o s e hinv)
    cases e with
    | request body =>
      rcases handlePayment_cases body s.world.fs with e | ⟨p, _, _, hnd, e⟩
      · show LayoutKept (handlePayment body s.world.fs).2
        rw [e]; exact h
      · show LayoutKept (handlePayment body s.world.fs).2
        rw [e]; exact layout_put _ _ _ h hnd
    | work k =>
      simp only [step]
      cases hk : s.workers[k]? with
      | none => exact h
      | some wk => exact layout_workerStep o wk s.world (hinv.1 k wk hk) h

theorem layout_bootFS : LayoutKept bootFS := by
  intro k
  simp only [bootFS, bootDirs, FS.find, List.mem_cons, List.mem_singleton, List.not_mem_nil,
    or_false]
  constructor
  · intro h
    repeat' split at h
    all_goals first
      | (rename_i e; subst e; simp)
      | cases h
  · intro h
    rcases h with e | e | e | e <;> subst e <;> decide

/-- In every state reached from start-up on a fresh machine the two stores and
the directory of the ledger exist, and no directory sits at the path of the
ledger or of an item file of the priority store. -/
theorem boot_layout_kept (o : Oracle) (evs : List Event) :
    (run o (initSys bootFS) evs).world.fs.find queueDir = some Node.dir ∧
    (run o (initSys bootFS) evs).world.fs.find priorityDir = some Node.dir ∧
    (run o (initSys bootFS) evs).world.fs.find summaryDir = some Node.dir ∧
    (run o (initSys bootFS) evs).world.fs.find summaryFile ≠ some Node.dir ∧
    ∀ n, '/' ∉ n → Ext n = dotJson →
      (run o (initSys bootFS) evs).world.fs.find (Join priorityDir n) ≠ some Node.dir := by
  have h := run_layout o (initSys bootFS) evs (init_inv bootFS) layout_bootFS
  refine ⟨(h _).mpr (by decide), (h _).mpr (by decide), (h _).mpr (by decide),
    layout_not_dir _ _ h (by decide), ?_⟩
  intro n hn hext
  rw [Join_store priorityDir n (Or.inr rfl) hn hext]
  exact layout_not_dir _ _ h (ext_item_ne_nil _ _ hext)

/-! ## The decoder inverts the encoder -/

theorem scanLines_cons (c : Char) (cs cur : Str) :
    scanLines (c :: cs) cur =
      if c = newline then
        if maxScanTokenSize ≤ byteLen cur then ([], true)
        else (dropCR cur.reverse :: (scanLines cs []).1, (scanLines cs []).2)
      else scanLines cs (c :: cur) :=
  rfl

theorem byteLen_cons (c : Char) (cs : Str) : byteLen (c :: cs) = c.utf8Size + byteLen cs := rfl

/-- A line whose bytes before the newline fill the buffer stops the scanner:
no token is delivered for it nor for anything after it. -/
theorem scanLines_too_long (m rest cur : Str) (hm : newline ∉ m)
    (hlen : maxScanTokenSize ≤ byteLen cur + byteLen m) :
    scanLines (m ++ newline :: rest) cur = ([], true) := by
  induction m generalizing cur with
  | nil =>
    have hc : maxScanTokenSize ≤ byteLen cur := by
      have : byteLen ([] : Str) = 0 := rfl
      omega
    rw [List.nil_append, scanLines_cons, if_pos rfl, if_pos hc]
  | cons c cs ih =>
    have hc : c ≠ newline := fun e => hm (by simp [e])
    have hcs : newline ∉ cs := fun e => hm (by simp [e])
    have hl : maxScanTokenSize ≤ byteLen (c :: cur) + byteLen cs := by
      rw [byteLen_cons] at hlen ⊢
      omega
    rw [List.cons_append, scanLines_cons, if_neg hc, ih (c :: cur) hcs hl]

/-- Run alone, a worker loop takes at most six steps over an entry and leaves the
world that `processEntry` computes. -/
theorem workerSteps_processEntry (o : Oracle) (id : Nat) (dir : Str) (f : DirEntry)
    (rest : List DirEntry) (w : World) :
    ∃ n, n ≤ 6 ∧
      workerSteps o n (⟨id, dir, PC.iter (f :: rest)⟩, w) =
        (⟨id, dir, PC.iter rest⟩, processEntry o dir f w) := by
  unfold processEntry
  by_cases hc : f.isDir = true ∨ Ext f.name ≠ dotJson
  · exact ⟨1, by omega, by simp [workerSteps, workerStep, hc]⟩
  · cases ho : openExcl w.fs (Join dir f.name ++ dotLock) with
    | none => exact ⟨1, by omega, by simp [workerSteps, workerStep, hc, ho]⟩
    | some fs1 =>
      cases hr : readFile fs1 (Join dir f.name) with
      | none => exact ⟨3, by omega, by simp [workerSteps, workerStep, hc, ho, hr]⟩
      | some data =>
        cases hp : jsonUnmarshal data with
        | none => exact ⟨3, by omega, by simp [workerSteps, workerStep, hc, ho, hr, hp]⟩
        | some p =>
          cases hs : (retryLoop o p 5 (100 * millisecond) { w with fs := fs1 }).1 with
          | true =>
            exact ⟨6, by omega, by simp [workerSteps, workerStep, hc, ho, hr, hp, hs]⟩
          | false =>
            exact ⟨5, by omega, by simp [workerSteps, workerStep, hc, ho, hr, hp, hs]⟩

/-! ## Intake of a plain id -/

/-- For an id without a path separator, `handlePayment` writes the raw body to
`<id>.json` directly in the normal store and touches no other path. -/
theorem handlePayment_plain (body : Str) (fs : FS) (p : Payment)
    (hp : jsonUnmarshal body = some p) (hid : p.ID ≠ []) (hplain : '/' ∉ p.ID)
    (hnul : Char.ofNat 0 ∉ p.ID) (hq : fs.find queueDir = some Node.dir)
    (hnd : fs.find (queueDir ++ '/' :: (p.ID ++ dotJson)) ≠ some Node.dir) :
    handlePayment body fs =
      (202, fs.put (queueDir ++ '/' :: (p.ID ++ dotJson)) (Node.file body)) ∧
    ∀ q, q ≠ queueDir ++ '/' :: (p.ID ++ dotJson) →
      (handlePayment body fs).2.find q = fs.find q := by
  have hpl := slash_not_mem_json p.ID hplain
  have hJ := Join_store queueDir _ (Or.inl rfl) hpl (Ext_json p.ID)
  have hpar : parentOf (queueDir ++ '/' :: (p.ID ++ dotJson)) = queueDir :=
    parentOf_slash _ _ hpl (store_ne_nil _ (Or.inl rfl))
  have e : handlePayment body fs =
      (202, fs.put (queueDir ++ '/' :: (p.ID ++ dotJson)) (Node.file body)) := by
    unfold handlePayment
    simp only [hp, hid, if_false, hJ]
    have hv : Char.ofNat 0 ∉ queueDir ++ '/' :: (p.ID ++ dotJson) := by
      have h1 : Char.ofNat 0 ∉ queueDir := by decide
      have h2 : Char.ofNat 0 ∉ dotJson := by decide
      have h3 : Char.ofNat 0 ≠ '/' := by decide
      simp only [List.mem_append, List.mem_cons, not_or]
      exact ⟨h1, h3, hnul, h2⟩
    unfold writeFile
    rw [hpar, if_pos ⟨hv, hq, hnd⟩]
  refine ⟨e, fun q hne => ?_⟩
  rw [e]
  simp only []
  rw [find_put, if_neg (Ne.symm hne)]

/-! ## Backoff in general -/

/-- From any delay between zero and the ceiling, the next delay is at least as
long and again at most the ceiling; the doubling never wraps. -/
theorem nextDelay_bounds (d : Int) (h0 : 0 ≤ d) (h1 : d ≤ maxRetryDelay) :
    d ≤ nextDelay d ∧ nextDelay d ≤ maxRetryDelay := by
  have hw : wrapInt64 (d * 2) = d * 2 := by
    unfold wrapInt64
    unfold maxRetryDelay second at h1
    omega
  unfold nextDelay
  simp only [hw]
  unfold maxRetryDelay second at h1 ⊢
  split <;> omega

/-! ## The marker protects a path, not an id -/

/-- C3 fails as stated: after `crossStoreRun`, in which the one request for `p1`
is followed by worker steps only, the normal-store loop of worker 1 is still
between its claim of `/tmp/p1.json` and the release of the marker
`/tmp/p1.json.lock`, which is still on disk, and the priority-store loop of
worker 1 has claimed the file of the same id and the same base name,
`/tmp/priority/p1.json`, that the first loop has just escalated: two claims on
the id `p1` have both succeeded and neither marker has been released. The two
markers are different files. -/
theorem same_id_claimed_in_both_stores :
    ((run alwaysFail (initSys bootFS) crossStoreRun).workers[1]?.map fun wk => wk.pc.holds) =
      some (some "/tmp/p1.json".toList) ∧
    ((run alwaysFail (initSys bootFS) crossStoreRun).workers[0]?.map fun wk => wk.pc.holds) =
      some (some "/tmp/priority/p1.json".toList) ∧
    (run alwaysFail (initSys bootFS) crossStoreRun).world.fs.find "/tmp/p1.json.lock".toList =
      some (Node.file []) ∧
    (run alwaysFail (initSys bootFS) crossStoreRun).world.fs.find
      "/tmp/priority/p1.json.lock".toList = some (Node.file []) ∧
    readFile (run alwaysFail (initSys bootFS) crossStoreRun).world.fs
      "/tmp/priority/p1.json".toList = some sampleBody ∧
    jsonUnmarshal sampleBody = some samplePayment ∧
    Base "/tmp/p1.json".toList = Base "/tmp/priority/p1.json".toList := by
  decide

/-! ## Retry policy -/

/-- C1: whatever the endpoints answer, the POSTs of the retry loop each carry the
answer the oracle gives to that URL and payload at that moment, and they are `k`
failed attempts (primary then fallback, both refused) followed either by a final
successful attempt (primary accepted, or primary refused and fallback accepted)
with `k < 5` and result `true`, or by nothing with `k = 5` and result `false`;
so the loop reports failure exactly when its POSTs are five failed attempts. -/
theorem retryLoop_policy (o : Oracle) (p : Payment) (d : Int) (w : World) :
    (∃ k tail, k ≤ 5 ∧
      (retryLoop o p 5 d w).2.posts =
        w.posts ++ (List.replicate k (failedAttempt p)).flatten ++ tail ∧
      Answered o w.posts ((List.replicate k (failedAttempt p)).flatten ++ tail) ∧
      (((retryLoop o p 5 d w).1 = true ∧ k < 5 ∧
          (tail = [⟨mainURL, jsonMarshal p, true⟩] ∨
           tail = [⟨mainURL, jsonMarshal p, false⟩, ⟨fallbackURL, jsonMarshal p, true⟩])) ∨
       ((retryLoop o p 5 d w).1 = false ∧ k = 5 ∧ tail = []))) ∧
    ((retryLoop o p 5 d w).1 = false ↔
      (retryLoop o p 5 d w).2.posts =
        w.posts ++ (List.replicate 5 (failedAttempt p)).flatten) := by
  obtain ⟨k, tail, hk, hposts, hres⟩ := retryLoop_shape o p 5 d w
  obtain ⟨new, hnew, hans⟩ := retryLoop_answered o p 5 d w
  have hnew2 : new = (List.replicate k (failedAttempt p)).flatten ++ tail := by
    rw [hposts, List.append_assoc] at hnew
    exact (List.append_cancel_left hnew).symm
  refine ⟨⟨k, tail, hk, hposts, hnew2 ▸ hans, hres⟩, ?_⟩
  constructor
  · intro hf
    rcases hres with ⟨a, _, _⟩ | ⟨_, b, c⟩
    · rw [hf] at a; cases a
    · rw [hposts, b, c, List.append_nil]
  · intro hp
    rcases hres with ⟨_, hlt, ht⟩ | ⟨a, _, _⟩
    · exfalso
      rw [hposts, List.append_assoc] at hp
      have hp2 := List.append_cancel_left hp
      have hall : ∀ x ∈ (List.replicate 5 (failedAttempt p)).flatten, x.ok = false := by
        intro x hx
        obtain ⟨l, hl, hxl⟩ := List.mem_flatten.mp hx
        have := List.eq_of_mem_replicate hl
        subst this
        simp only [failedAttempt, List.mem_cons, List.mem_singleton, List.not_mem_nil,
          or_false] at hxl
        rcases hxl with h | h <;> rw [h]
      rcases ht with ht | ht
      · have hm : (⟨mainURL, jsonMarshal p, true⟩ : Post) ∈
            (List.replicate 5 (failedAttempt p)).flatten := by
          rw [← hp2, ht]; simp
        have := hall _ hm
        cases this
      · have hm : (⟨fallbackURL, jsonMarshal p, true⟩ : Post) ∈
            (List.replicate 5 (failedAttempt p)).flatten := by
          rw [← hp2, ht]; simp
        have := hall _ hm
        cases this
    · exact a

/-- C2: when the retry loop reports failure, the delays it slept are five, the
first is 100 ms, each is at most the next, and none exceeds `maxRetryDelay`. -/
theorem backoff_delays (o : Oracle) (p : Payment) (w : World)
    (hfail : (retryLoop o p 5 (100 * millisecond) w).1 = false) :
    ∃ ds, (retryLoop o p 5 (100 * millisecond) w).2.sleeps = w.sleeps ++ ds ∧
      ds.length = 5 ∧ ds.head? = some (100 * millisecond) ∧
      ds.Pairwise (fun a b => a ≤ b) ∧ ∀ x ∈ ds, x ≤ maxRetryDelay := by
  obtain ⟨k, _, hs, hk⟩ := retryLoop_sleeps o p 5 (100 * millisecond) w
  have hk5 := hk hfail
  subst hk5
  have hd : delays 5 (100 * millisecond) =
      [100000000, 200000000, 400000000, 800000000, 1600000000] := by decide
  refine ⟨delays 5 (100 * millisecond), hs, ?_, ?_, ?_, ?_⟩
  · rw [hd]; rfl
  · rw [hd]; rfl
  · rw [hd]; simp
  · rw [hd]; simp [maxRetryDelay, second]

/-- The delays of `backoff_delays` for `p1` when every POST is refused. -/
theorem backoff_delays_witness :
    (retryLoop alwaysFail samplePayment 5 (100 * millisecond) sampleNormal).1 = false ∧
    ∃ ds, (retryLoop alwaysFail samplePayment 5 (100 * millisecond) sampleNormal).2.sleeps =
        sampleNormal.sleeps ++ ds ∧
      ds.length = 5 ∧ ds.head? = some (100 * millisecond) ∧
      ds.Pairwise (fun a b => a ≤ b) ∧ ∀ x ∈ ds, x ≤ maxRetryDelay :=
  ⟨by decide, backoff_delays alwaysFail samplePayment sampleNormal (by decide)⟩

/-! ## Outcome of one claimed item -/

/-- After a delivered item: its file is gone and the ledger has grown by the
encoding of the item and a newline. -/
theorem success_effects (o : Oracle) (dir : Str) (files : List DirEntry)
    (f : DirEntry) (w : World) (data : Str) (p : Payment)
    (hdir : dir = queueDir ∨ dir = priorityDir)
    (hfiles : readDir w.fs dir = some files) (hf : f ∈ files)
    (hnd : f.isDir = false) (hext : Ext f.name = dotJson)
    (hlock : w.fs.find (Join dir f.name ++ dotLock) = none)
    (hread : readFile w.fs (Join dir f.name) = some data)
    (hparse : jsonUnmarshal data = some p)
    (hok : (retryLoop o p 5 (100 * millisecond) w).1 = true)
    (hdata : w.fs.find summaryDir = some Node.dir)
    (hled : w.fs.find summaryFile ≠ some Node.dir) :
    (processEntry o dir f w).fs.find (Join dir f.name) = none ∧
    ledger (processEntry o dir f w).fs = ledger w.fs ++ (jsonMarshal p ++ [newline]) := by
  obtain ⟨hd, hplain, _, _, _⟩ := mem_readDir w.fs dir files f (store_ne_root dir hdir) hfiles hf
  have hJ := Join_store dir f.name hdir hplain hext
  rw [hJ] at hlock hread ⊢
  have hread2 := (readFile_eq_some _ _ _).mp hread
  have hL1 : dir ++ '/' :: f.name ++ dotLock ≠ dir ++ '/' :: f.name :=
    lock_ne_of_ext _ _ (ext_item dir f.name hext)
  have hL2 : dir ++ '/' :: f.name ++ dotLock ≠ summaryFile := lock_ne_of_ext _ _ ext_summaryFile
  have hS1 : summaryFile ≠ dir ++ '/' :: f.name := summary_ne dir f.name hdir
  rw [processEntry_success o dir f w data p hdir hplain hnd hext hd hlock hread2 hparse hok
    hdata hled]
  refine ⟨?_, ?_⟩
  · rw [find_erase, if_neg hL1, find_put, if_neg hS1, find_erase, if_pos rfl]
  · unfold ledger readFile
    rw [find_erase, if_neg hL2, find_put, if_pos rfl]
    rfl

/-- The POSTs made for a claimed, parseable item all carry its encoding. -/
theorem entry_posts (o : Oracle) (dir : Str) (files : List DirEntry)
    (f : DirEntry) (w : World) (data : Str) (p : Payment)
    (hdir : dir = queueDir ∨ dir = priorityDir)
    (hfiles : readDir w.fs dir = some files) (hf : f ∈ files)
    (hnd : f.isDir = false) (hext : Ext f.name = dotJson)
    (hlock : w.fs.find (Join dir f.name ++ dotLock) = none)
    (hread : readFile w.fs (Join dir f.name) = some data)
    (hparse : jsonUnmarshal data = some p) :
    ∃ new, (processEntry o dir f w).posts = w.posts ++ new ∧
      ∀ x ∈ new, x.payload = jsonMarshal p := by
  obtain ⟨hd, hplain, _, _, _⟩ := mem_readDir w.fs dir files f (store_ne_root dir hdir) hfiles hf
  have hJ := Join_store dir f.name hdir hplain hext
  rw [hJ] at hlock hread
  have hread2 := (readFile_eq_some _ _ _).mp hread
  rw [processEntry_claimed o dir f w data hdir hplain hnd hext hd hlock hread2, hparse]
  exact retryLoop_payloads o p 5 (100 * millisecond) w

/-- C5: a claimed, parseable item of the normal store for which the retry loop
fails is afterwards absent from the normal store and present in the priority
store under the same base name with the same bytes; the ledger file is
untouched. The priority directory is assumed to exist, with no directory at the
target path, as in every state reached from start-up (`boot_layout_kept`). -/
theorem exhausted_normal_item_escalated (o : Oracle) (files : List DirEntry)
    (f : DirEntry) (w : World) (data : Str) (p : Payment)
    (hfiles : readDir w.fs queueDir = some files) (hf : f ∈ files)
    (hnd : f.isDir = false) (hext : Ext f.name = dotJson)
    (hlock : w.fs.find (Join queueDir f.name ++ dotLock) = none)
    (hread : readFile w.fs (Join queueDir f.name) = some data)
    (hparse : jsonUnmarshal data = some p)
    (hfail : (retryLoop o p 5 (100 * millisecond) w).1 = false)
    (hprio : w.fs.find priorityDir = some Node.dir)
    (hnodir : w.fs.find (Join priorityDir f.name) ≠ some Node.dir) :
    Base (Join queueDir f.name) = f.name ∧
    readFile (processEntry o queueDir f w).fs (Join priorityDir f.name) = some data ∧
    (processEntry o queueDir f w).fs.find (Join queueDir f.name) = none ∧
    (processEntry o queueDir f w).fs.find summaryFile = w.fs.find summaryFile := by
  have hdir : queueDir = queueDir ∨ queueDir = priorityDir := Or.inl rfl
  obtain ⟨hd, hplain, hne, _, _⟩ :=
    mem_readDir w.fs queueDir files f queueDir_ne_root hfiles hf
  have hJ := Join_store queueDir f.name hdir hplain hext
  have hJp := Join_store priorityDir f.name (Or.inr rfl) hplain hext
  rw [hJ] at hlock hread ⊢
  rw [hJp] at hnodir ⊢
  have hread2 := (readFile_eq_some _ _ _).mp hread
  have hL1 : queueDir ++ '/' :: f.name ++ dotLock ≠ queueDir ++ '/' :: f.name :=
    lock_ne_of_ext _ _ (ext_item queueDir f.name hext)
  have hL2 : queueDir ++ '/' :: f.name ++ dotLock ≠ priorityDir ++ '/' :: f.name :=
    lock_ne_of_ext _ _ (ext_item priorityDir f.name hext)
  have hL3 : queueDir ++ '/' :: f.name ++ dotLock ≠ summaryFile :=
    lock_ne_of_ext _ _ ext_summaryFile
  have hQP : queueDir ++ '/' :: f.name ≠ priorityDir ++ '/' :: f.name :=
    queue_ne_priority f.name f.name hplain
  have hS1 : ¬ (queueDir ++ '/' :: f.name = summaryFile) :=
    fun e => summary_ne queueDir f.name hdir e.symm
  have hS2 : ¬ (priorityDir ++ '/' :: f.name = summaryFile) :=
    fun e => summary_ne priorityDir f.name (Or.inr rfl) e.symm
  rw [processEntry_failure o queueDir f w data p hdir hplain hnd hext hd hlock hread2 hparse
    hfail hprio hnodir]
  refine ⟨Base_slash queueDir f.name hplain hne, ?_, ?_, ?_⟩
  · rw [readFile_eq_some, find_erase, if_neg hL2, find_put, if_pos rfl]
  · rw [find_erase, if_neg hL1, find_put, if_neg (Ne.symm hQP), find_erase, if_pos rfl]
  · rw [find_erase, if_neg hL3, find_put, if_neg hS2, find_erase, if_neg hS1, find_put,
      if_neg hL3]

/-- The item of `p1` in the normal store, every POST refused. -/
theorem exhausted_normal_item_escalated_witness :
    Base (Join queueDir sampleEntry.name) = sampleEntry.name ∧
    readFile (processEntry alwaysFail queueDir sampleEntry sampleNormal).fs
      (Join priorityDir sampleEntry.name) = some sampleBody ∧
    (processEntry alwaysFail queueDir sampleEntry sampleNormal).fs.find
      (Join queueDir sampleEntry.name) = none ∧
    (processEntry alwaysFail queueDir sampleEntry sampleNormal).fs.find summaryFile =
      sampleNormal.fs.find summaryFile :=
  exhausted_normal_item_escalated alwaysFail [sampleEntry, priorityEntry]
    sampleEntry sampleNormal sampleBody samplePayment (by decide) (by decide)
    (by decide) (by decide) (by decide) (by decide) (by decide) (by decide) (by decide)
    (by decide)

/-- C9: a claimed item whose bytes do not parse leaves the world as it was: no
POST is made, the item file keeps its bytes, the ledger file is untouched, the
lock marker is gone, and the entry is listed and can be claimed again. -/
theorem malformed_item_left_in_place (o : Oracle) (dir : Str) (files : List DirEntry)
    (f : DirEntry) (w : World) (data : Str)
    (hdir : dir = queueDir ∨ dir = priorityDir)
    (hfiles : readDir w.fs dir = some files) (hf : f ∈ files)
    (hnd : f.isDir = false) (hext : Ext f.name = dotJson)
    (hlock : w.fs.find (Join dir f.name ++ dotLock) = none)
    (hread : readFile w.fs (Join dir f.name) = some data)
    (hparse : jsonUnmarshal data = none) :
    (processEntry o dir f w).posts = w.posts ∧
    readFile (processEntry o dir f w).fs (Join dir f.name) = some data ∧
    (processEntry o dir f w).fs.find summaryFile = w.fs.find summaryFile ∧
    (processEntry o dir f w).fs.find (Join dir f.name ++ dotLock) = none ∧
    readDir (processEntry o dir f w).fs dir = some files ∧
    (openExcl (processEntry o dir f w).fs (Join dir f.name ++ dotLock)).isSome = true := by
  obtain ⟨hd, hplain, _, _, _⟩ := mem_readDir w.fs dir files f (store_ne_root dir hdir) hfiles hf
  have hJ := Join_store dir f.name hdir hplain hext
  have hread2 := (readFile_eq_some _ _ _).mp (hJ ▸ hread)
  have hpe : processEntry o dir f w = w := by
    rw [processEntry_claimed o dir f w data hdir hplain hnd hext hd (hJ ▸ hlock) hread2, hparse]
  rw [hpe]
  refine ⟨rfl, hread, rfl, hlock, hfiles, ?_⟩
  unfold openExcl
  rw [hJ, parentOf_lock dir f.name hdir hplain, if_pos ⟨hd, hJ ▸ hlock⟩]
  rfl

/-- An item file of the normal store that holds `not json`. -/
theorem malformed_item_left_in_place_witness :
    (processEntry alwaysOk queueDir sampleEntry samplePoison).posts = samplePoison.posts ∧
    readFile (processEntry alwaysOk queueDir sampleEntry samplePoison).fs
      (Join queueDir sampleEntry.name) = some "not json".toList ∧
    (processEntry alwaysOk queueDir sampleEntry samplePoison).fs.find summaryFile =
      samplePoison.fs.find summaryFile ∧
    (processEntry alwaysOk queueDir sampleEntry samplePoison).fs.find
      (Join queueDir sampleEntry.name ++ dotLock) = none ∧
    readDir (processEntry alwaysOk queueDir sampleEntry samplePoison).fs queueDir =
      some [sampleEntry, priorityEntry] ∧
    (openExcl (processEntry alwaysOk queueDir sampleEntry samplePoison).fs
      (Join queueDir sampleEntry.name ++ dotLock)).isSome = true :=
  malformed_item_left_in_place alwaysOk queueDir [sampleEntry, priorityEntry]
    sampleEntry samplePoison "not json".toList (Or.inl rfl) (by decide) (by decide)
    (by decide) (by decide) (by decide) (by decide) (by decide)

/-- C10: a claimed, parseable item of the priority store for which the retry loop
fails is afterwards still in the priority store under the same name with the
same bytes; its lock marker is gone and the ledger file is untouched. -/
theorem exhausted_priority_item_stays (o : Oracle) (files : List DirEntry)
    (f : DirEntry) (w : World) (data : Str) (p : Payment)
    (hfiles : readDir w.fs priorityDir = some files) (hf : f ∈ files)
    (hnd : f.isDir = false) (hext : Ext f.name = dotJson)
    (hlock : w.fs.find (Join priorityDir f.name ++ dotLock) = none)
    (hread : readFile w.fs (Join priorityDir f.name) = some data)
    (hparse : jsonUnmarshal data = some p)
    (hfail : (retryLoop o p 5 (100 * millisecond) w).1 = false) :
    Join priorityDir (Base (Join priorityDir f.name)) = Join priorityDir f.name ∧
    readFile (processEntry o priorityDir f w).fs (Join priorityDir f.name) = some data ∧
    (processEntry o priorityDir f w).fs.find (Join priorityDir f.name ++ dotLock) = none ∧
    (processEntry o priorityDir f w).fs.find summaryFile = w.fs.find summaryFile := by
  have hdir : priorityDir = queueDir ∨ priorityDir = priorityDir := Or.inr rfl
  obtain ⟨hd, hplain, hne, _, _⟩ :=
    mem_readDir w.fs priorityDir files f priorityDir_ne_root hfiles hf
  have hJ := Join_store priorityDir f.name hdir hplain hext
  rw [hJ] at hlock hread ⊢
  have hread2 := (readFile_eq_some _ _ _).mp hread
  have hL1 : priorityDir ++ '/' :: f.name ++ dotLock ≠ priorityDir ++ '/' :: f.name :=
    lock_ne_of_ext _ _ (ext_item priorityDir f.name hext)
  have hL3 : priorityDir ++ '/' :: f.name ++ dotLock ≠ summaryFile :=
    lock_ne_of_ext _ _ ext_summaryFile
  have hS2 : ¬ (priorityDir ++ '/' :: f.name = summaryFile) :=
    fun e => summary_ne priorityDir f.name hdir e.symm
  rw [processEntry_failure o priorityDir f w data p hdir hplain hnd hext hd hlock hread2 hparse
    hfail hd (by rw [hread2]; simp)]
  refine ⟨by rw [Base_slash priorityDir f.name hplain hne, hJ], ?_, ?_, ?_⟩
  · rw [readFile_eq_some, find_erase, if_neg hL1, find_put, if_pos rfl]
  · rw [find_erase, if_pos rfl]
  · rw [find_erase, if_neg hL3, find_put, if_neg hS2, find_erase, if_neg hS2, find_put,
      if_neg hL3]

/-- The item of `p1` in the priority store, every POST refused. -/
theorem exhausted_priority_item_stays_witness :
    Join priorityDir (Base (Join priorityDir sampleEntry.name)) =
      Join priorityDir sampleEntry.name ∧
    readFile (processEntry alwaysFail priorityDir sampleEntry samplePriority).fs
      (Join priorityDir sampleEntry.name) = some sampleBody ∧
    (processEntry alwaysFail priorityDir sampleEntry samplePriority).fs.find
      (Join priorityDir sampleEntry.name ++ dotLock) = none ∧
    (processEntry alwaysFail priorityDir sampleEntry samplePriority).fs.find summaryFile =
      samplePriority.fs.find summaryFile :=
  exhausted_priority_item_stays alwaysFail [sampleEntry] sampleEntry samplePriority sampleBody
    samplePayment (by decide) (by decide) (by decide) (by decide) (by decide) (by decide)
    (by decide) (by decide)

/-! ## Lock markers -/

/-- C3, amended: in every state reached by any interleaving of requests and worker
steps from any initial file system, no item file, a path in one store, is held
(claimed and not yet released) by two worker loops; and a worker loop whose next entry is an item
file held by another loop passes over it: its step changes neither the file
system nor the POSTs made and leaves it at the rest of its listing. -/
theorem lock_mutual_exclusion (o : Oracle) (fs0 : FS) (evs : List Event) :
    (∀ (i j : Nat) (wi wj : Worker) (P : Str),
      (run o (initSys fs0) evs).workers[i]? = some wi →
      (run o (initSys fs0) evs).workers[j]? = some wj →
      wi.pc.holds = some P → wj.pc.holds = some P → i = j) ∧
    (∀ (i j : Nat) (wi wj : Worker) (f : DirEntry) (rest : List DirEntry),
      (run o (initSys fs0) evs).workers[i]? = some wi →
      (run o (initSys fs0) evs).workers[j]? = some wj →
      wi.pc = PC.iter (f :: rest) → f.isDir = false → Ext f.name = dotJson →
      wj.pc.holds = some (Join wi.dir f.name) →
      step o (run o (initSys fs0) evs) (Event.work i) =
        ⟨(run o (initSys fs0) evs).world,
          (run o (initSys fs0) evs).workers.set i { wi with pc := PC.iter rest }⟩) := by
  have hinv := run_inv o (initSys fs0) evs (init_inv fs0)
  refine ⟨hinv.2, ?_⟩
  intro i j wi wj f rest hi hj hpc hnd hext hhold
  have hlock := ((hinv.1 j wj hj).2.2 _ hhold).2
  have hopen : openExcl (run o (initSys fs0) evs).world.fs (Join wi.dir f.name ++ dotLock) =
      none := by
    rcases openExcl_cases (run o (initSys fs0) evs).world.fs (Join wi.dir f.name ++ dotLock)
      with h | ⟨h, _⟩
    · exact h
    · exact absurd h hlock
  obtain ⟨id, dir, pc⟩ := wi
  simp only [] at hpc hhold hopen
  subst hpc
  simp only [step, hi, workerStep, hnd, hext, hopen]
  simp

/-- After `contendRun` loop 1 holds the item file of `p1` and loop 3 passes over it. -/
theorem lock_mutual_exclusion_witness :
    (run alwaysFail (initSys bootFS) contendRun).workers[1]? =
      some ⟨1, queueDir, PC.claimed "/tmp/p1.json".toList [priorityEntry]⟩ ∧
    (run alwaysFail (initSys bootFS) contendRun).workers[3]? =
      some ⟨2, queueDir, PC.iter [sampleEntry, sampleLockEntry, priorityEntry]⟩ ∧
    1 = 1 ∧
    step alwaysFail (run alwaysFail (initSys bootFS) contendRun) (Event.work 3) =
      ⟨(run alwaysFail (initSys bootFS) contendRun).world,
        (run alwaysFail (initSys bootFS) contendRun).workers.set 3
          ⟨2, queueDir, PC.iter [sampleLockEntry, priorityEntry]⟩⟩ :=
  ⟨by decide, by decide,
    (lock_mutual_exclusion alwaysFail bootFS contendRun).1 1 1
      ⟨1, queueDir, PC.claimed "/tmp/p1.json".toList [priorityEntry]⟩
      ⟨1, queueDir, PC.claimed "/tmp/p1.json".toList [priorityEntry]⟩
      "/tmp/p1.json".toList (by decide) (by decide) (by decide) (by decide),
    (lock_mutual_exclusion alwaysFail bootFS contendRun).2 3 1
      ⟨2, queueDir, PC.iter [sampleEntry, sampleLockEntry, priorityEntry]⟩
      ⟨1, queueDir, PC.claimed "/tmp/p1.json".toList [priorityEntry]⟩
      sampleEntry [sampleLockEntry, priorityEntry] (by decide) (by decide) (by decide)
      (by decide) (by decide) (by decide)⟩

/-! ## Intake -/

/-- C6, at the failing input: the accepted body with id `../data/summary` is
written over the ledger file and nothing is put in the normal store; the
accepted body with id `priority/p1` is written into the priority store. -/
theorem handlePayment_leaves_queueDir :
    jsonUnmarshal traversalBody = some ⟨"../data/summary".toList, "1".toList⟩ ∧
    handlePayment traversalBody bootWithLedger =
      (202, bootWithLedger.put summaryFile (Node.file traversalBody)) ∧
    ledger bootWithLedger = encodeLine samplePayment ∧
    ledger (handlePayment traversalBody bootWithLedger).2 = traversalBody ∧
    readDir (handlePayment traversalBody bootWithLedger).2 queueDir =
      some [priorityEntry] ∧
    (handlePayment intoPriorityBody bootFS).1 = 202 ∧
    readFile (handlePayment intoPriorityBody bootFS).2 "/tmp/priority/p1.json".toList =
      some intoPriorityBody ∧
    readDir (handlePayment intoPriorityBody bootFS).2 queueDir =
      some [priorityEntry] := by
  decide

/-! ## Disjoint stores -/

/-- C7 fails as stated: after `p1` was escalated to the priority store, a second
request for `p1` is accepted and puts its item file in the normal store too. -/
theorem reenqueue_duplicates_item :
    readFile (run alwaysFail (initSys bootFS)
        (escalateRun ++ [Event.request sampleBody])).world.fs
      (Join queueDir ("p1".toList ++ dotJson)) = some sampleBody ∧
    readFile (run alwaysFail (initSys bootFS)
        (escalateRun ++ [Event.request sampleBody])).world.fs
      (Join priorityDir ("p1".toList ++ dotJson)) = some sampleBody := by
  decide

/-- C7, amended: in every state reached from the freshly started system by
requests and worker steps in which every accepted request carries an id without
a path separator whose item file is not in the priority store at that moment,
no id without a path separator has an item file in both stores. -/
theorem stores_disjoint_under_discipline (o : Oracle) (evs : List Event)
    (hadm : allAdmissible o (initSys bootFS) evs = true) (id : Str) (hid : '/' ∉ id) :
    ¬ ((readFile (run o (initSys bootFS) evs).world.fs (Join queueDir (id ++ dotJson))).isSome ∧
       (readFile (run o (initSys bootFS) evs).world.fs
          (Join priorityDir (id ++ dotJson))).isSome) := by
  have hnd := run_storesDisjoint o (initSys bootFS) evs (init_inv bootFS) storesDisjoint_bootFS hadm
  have hpl := slash_not_mem_json id hid
  have hext := Ext_json id
  rw [Join_store queueDir _ (Or.inl rfl) hpl hext, Join_store priorityDir _ (Or.inr rfl) hpl hext]
  intro ⟨h1, h2⟩
  obtain ⟨d1, e1⟩ := Option.isSome_iff_exists.mp h1
  obtain ⟨d2, e2⟩ := Option.isSome_iff_exists.mp h2
  exact hnd _ hpl hext ⟨⟨d1, (readFile_eq_some _ _ _).mp e1⟩, ⟨d2, (readFile_eq_some _ _ _).mp e2⟩⟩

/-- A request that is refused, though its id has a path separator, is under no
condition; after it and `escalateRun` the item file of `p1` is in the priority
store only. -/
theorem stores_disjoint_under_discipline_witness :
    handlePayment refusedBody bootFS = (500, bootFS) ∧
    allAdmissible alwaysFail (initSys bootFS) (Event.request refusedBody :: escalateRun) =
      true ∧
    readFile (run alwaysFail (initSys bootFS) (Event.request refusedBody :: escalateRun)).world.fs
      (Join priorityDir ("p1".toList ++ dotJson)) = some sampleBody ∧
    ¬ ((readFile (run alwaysFail (initSys bootFS)
            (Event.request refusedBody :: escalateRun)).world.fs
          (Join queueDir ("p1".toList ++ dotJson))).isSome ∧
       (readFile (run alwaysFail (initSys bootFS)
            (Event.request refusedBody :: escalateRun)).world.fs
          (Join priorityDir ("p1".toList ++ dotJson))).isSome) :=
  ⟨by decide, by decide, by decide,
    stores_disjoint_under_discipline alwaysFail (Event.request refusedBody :: escalateRun)
      (by decide) "p1".toList (by decide)⟩

/-! ## What is posted and recorded -/

/-- C8 fails as stated: the accepted body `spacedBody` is stored verbatim, but
what is posted for it and what is written to the ledger is the compact encoding
of its two decoded fields, which differs from the stored bytes. -/
theorem reencoding_differs_from_stored_bytes :
    (handlePayment spacedBody bootFS).1 = 202 ∧
    readFile spacedNormal.fs (Join queueDir ("p2".toList ++ dotJson)) = some spacedBody ∧
    (processQueue alwaysOk queueDir 1 spacedNormal).posts = [⟨mainURL, compactBody, true⟩] ∧
    ledger (processQueue alwaysOk queueDir 1 spacedNormal).fs = compactBody ++ [newline] ∧
    compactBody ≠ spacedBody ∧ compactBody ++ [newline] ≠ spacedBody := by
  decide

/-- C8, amended: a request body that `handlePayment` accepts decodes to a payment
`p`, and the file the request leaves at `Join(queueDir, p.ID + ".json")` holds
the body verbatim. For every later claim of an item file holding these bytes, in
either store and in any world, every POST made while it is processed carries
`json.Marshal(p)`, and on success the ledger grows by `json.Marshal(p)` and a
newline: the encoding of the two decoded fields, not the bytes of the body. -/
theorem posted_and_recorded_bytes_are_reencoded (body : Str) (fs0 fs1 : FS)
    (hacc : handlePayment body fs0 = (202, fs1)) :
    ∃ p, jsonUnmarshal body = some p ∧
      readFile fs1 (Join queueDir (p.ID ++ dotJson)) = some body ∧
      ∀ (o : Oracle) (dir : Str) (files : List DirEntry) (f : DirEntry) (w : World),
        (dir = queueDir ∨ dir = priorityDir) →
        readDir w.fs dir = some files → f ∈ files →
        f.isDir = false → Ext f.name = dotJson →
        w.fs.find (Join dir f.name ++ dotLock) = none →
        readFile w.fs (Join dir f.name) = some body →
        w.fs.find summaryDir = some Node.dir →
        w.fs.find summaryFile ≠ some Node.dir →
        (∃ new, (processEntry o dir f w).posts = w.posts ++ new ∧
          ∀ x ∈ new, x.payload = jsonMarshal p) ∧
        ((retryLoop o p 5 (100 * millisecond) w).1 = true →
          ledger (processEntry o dir f w).fs =
            ledger w.fs ++ (jsonMarshal p ++ [newline])) := by
  obtain ⟨p, hp, _, _, hfs⟩ := handlePayment_accepted body fs0 fs1 hacc
  refine ⟨p, hp, ?_, ?_⟩
  · rw [hfs, readFile_eq_some, find_put, if_pos rfl]
  · intro o dir files f w hdir hfiles hf hnd hext hlock hread hdata hled
    exact ⟨entry_posts o dir files f w body p hdir hfiles hf hnd hext hlock hread hp,
      fun hok => (success_effects o dir files f w body p hdir hfiles hf hnd hext hlock hread
        hp hok hdata hled).2⟩

/-- The body `spacedBody`, accepted on a freshly started machine, then claimed in
the normal store and delivered at the first POST. -/
theorem posted_and_recorded_bytes_are_reencoded_witness :
    handlePayment spacedBody bootFS = (202, spacedNormal.fs) ∧
    ∃ p, jsonUnmarshal spacedBody = some p ∧
      p = ⟨"p2".toList, "5.00".toList⟩ ∧
      readFile spacedNormal.fs (Join queueDir (p.ID ++ dotJson)) = some spacedBody ∧
      (∃ new, (processEntry alwaysOk queueDir ⟨"p2.json".toList, false⟩ spacedNormal).posts =
          spacedNormal.posts ++ new ∧
        ∀ x ∈ new, x.payload = jsonMarshal p) ∧
      ((retryLoop alwaysOk p 5 (100 * millisecond) spacedNormal).1 = true →
        ledger (processEntry alwaysOk queueDir ⟨"p2.json".toList, false⟩ spacedNormal).fs =
          ledger spacedNormal.fs ++ (jsonMarshal p ++ [newline])) :=
  ⟨by decide,
    match posted_and_recorded_bytes_are_reencoded spacedBody bootFS spacedNormal.fs
      (by decide) with
    | ⟨p, h1, h2, h3⟩ =>
      ⟨p, h1, Option.some.inj (h1.symm.trans (by decide)), h2,
        h3 alwaysOk queueDir [⟨"p2.json".toList, false⟩, priorityEntry]
          ⟨"p2.json".toList, false⟩ spacedNormal (Or.inl rfl) (by decide) (by decide)
          (by decide) (by decide) (by decide) (by decide) (by decide) (by decide)⟩⟩

end Rinha
